import Mathlib

/-
  Shallow embedding of the virtual-memory simulator
  (page_table.py, replacement_algorithms.py, virtual_memory.py).

  Conventions:
  * Python `int` is modelled as `Int` (logical clocks and counters, which are
    only ever incremented from 0, are modelled as `Nat`).
  * A Python `dict` / `OrderedDict` is modelled as an insertion-ordered
    association list `List (Int × α)`; `dictGet`/`dictSet`/`dictDel` mirror
    `d[k]`, `d[k] = v`, `del d[k]`.
  * A Python exception (IndexError, KeyError, ValueError, ZeroDivisionError)
    is modelled as `none`; a normal return is `some`.
  * Python list indexing `l[i]` supports negative indices (counting from the
    end); `pyIdx` reproduces that.
-/

namespace VMS

/-- Lookup of a key in an insertion-ordered association list (Python `d[k]` /
`k in d`): returns the value of the first (and, in maintained dicts, only)
binding of `k`. -/
def dictGet {α : Type} : List (Int × α) → Int → Option α
  | [], _ => none
  | (k', v) :: t, k => if k' = k then some v else dictGet t k

/-- Python `d[k] = v`: update the binding in place if present, else append. -/
def dictSet {α : Type} : List (Int × α) → Int → α → List (Int × α)
  | [], k, v => [(k, v)]
  | (k', v') :: t, k, v =>
    if k' = k then (k, v) :: t else (k', v') :: dictSet t k v

/-- Removal of the first binding of `k` (no-op when absent). -/
def dictDel {α : Type} : List (Int × α) → Int → List (Int × α)
  | [], _ => []
  | (k', v') :: t, k => if k' = k then t else (k', v') :: dictDel t k

/-- Python `del d[k]`: KeyError (modelled as `none`) when `k` is absent. -/
def pyDictDel {α : Type} (l : List (Int × α)) (k : Int) :
    Option (List (Int × α)) :=
  if (dictGet l k).isSome then some (dictDel l k) else none

/-- Python `d[k] += 1`: KeyError when `k` is absent. -/
def pyDictIncr (l : List (Int × Nat)) (k : Int) : Option (List (Int × Nat)) :=
  match dictGet l k with
  | none => none
  | some c => some (dictSet l k (c + 1))

/-- Python list indexing `l[i]`: negative indices count from the end,
out-of-range indices raise IndexError (here `none`). -/
def pyIdx {α : Type} (l : List α) (i : Int) : Option α :=
  if 0 ≤ i then l.get? i.toNat
  else if i.natAbs ≤ l.length then l.get? (l.length - i.natAbs) else none

/-- Python list item assignment `l[i] = a`, with the same index semantics as
`pyIdx`. -/
def pySetIdx {α : Type} (l : List α) (i : Int) (a : α) : Option (List α) :=
  if 0 ≤ i then
    if i.toNat < l.length then some (l.set i.toNat a) else none
  else if i.natAbs ≤ l.length then some (l.set (l.length - i.natAbs) a)
  else none

/-- Python `list.remove(x)`: removes the first occurrence, ValueError when
absent. -/
def pyRemove : List Int → Int → Option (List Int)
  | [], _ => none
  | y :: t, x => if y = x then some t else (pyRemove t x).map (y :: ·)

/-- Python floor division `a // b` (ZeroDivisionError when `b = 0`). -/
def pyFdiv (a b : Int) : Option Int :=
  if b = 0 then none else some (Int.fdiv a b)

/-- Python modulo `a % b` (sign of the divisor; ZeroDivisionError when
`b = 0`). -/
def pyFmod (a b : Int) : Option Int :=
  if b = 0 then none else some (Int.fmod a b)

/-! ## page_table.py -/

/-- One entry of the page table (`PageTableEntry.__init__`). -/
structure PageTableEntry where
  valid : Bool
  frame_number : Option Int
  referenced : Bool
  modified : Bool
  last_access_time : Nat
  access_count : Nat
  deriving DecidableEq, Repr

/-- A fresh `PageTableEntry()`. -/
def PageTableEntry.init : PageTableEntry :=
  { valid := false, frame_number := none, referenced := false,
    modified := false, last_access_time := 0, access_count := 0 }

/-- `PageTable`: `num_pages` and the list `entries`. -/
structure PageTable where
  num_pages : Int
  entries : List PageTableEntry
  deriving DecidableEq, Repr

/-- `PageTable.__init__`. -/
def PageTable.init (num_pages : Int) : PageTable :=
  { num_pages, entries := List.replicate num_pages.toNat PageTableEntry.init }

/-- `PageTable.is_valid`: reads `entries[page_number].valid` with *no* bounds
check of its own (Python list indexing: negative indices wrap, too-large
indices raise IndexError). -/
def PageTable.is_valid (pt : PageTable) (page_number : Int) : Option Bool :=
  (pyIdx pt.entries page_number).map PageTableEntry.valid

/-- `PageTable.get_frame_number`: `None` (inner `none`) when the page is not
valid, otherwise the entry's frame number; outer `none` is an exception. -/
def PageTable.get_frame_number (pt : PageTable) (page_number : Int) :
    Option (Option Int) :=
  match pt.is_valid page_number with
  | none => none
  | some false => some none
  | some true => (pyIdx pt.entries page_number).map PageTableEntry.frame_number

/-- `PageTable.set_frame`: mark the page valid and record the frame. -/
def PageTable.set_frame (pt : PageTable) (page_number frame_number : Int) :
    Option PageTable :=
  match pyIdx pt.entries page_number with
  | none => none
  | some e =>
    (pySetIdx pt.entries page_number
        { e with valid := true, frame_number := some frame_number }).map
      fun es => { pt with entries := es }

/-- `PageTable.invalidate`: clear valid and frame. -/
def PageTable.invalidate (pt : PageTable) (page_number : Int) :
    Option PageTable :=
  match pyIdx pt.entries page_number with
  | none => none
  | some e =>
    (pySetIdx pt.entries page_number
        { e with valid := false, frame_number := none }).map
      fun es => { pt with entries := es }

/-- `PageTable.update_access`: set referenced, update the access time,
increment the access count, set modified on a write. -/
def PageTable.update_access (pt : PageTable) (page_number : Int) (time : Nat)
    (is_write : Bool) : Option PageTable :=
  match pyIdx pt.entries page_number with
  | none => none
  | some e =>
    (pySetIdx pt.entries page_number
        { e with referenced := true, last_access_time := time,
                 access_count := e.access_count + 1,
                 modified := if is_write then true else e.modified }).map
      fun es => { pt with entries := es }

/-! ## virtual_memory.py : TLB -/

/-- The TLB: an LRU `OrderedDict` (front = least recently used, back = most
recently used) with hit/miss counters. -/
structure TLB where
  size : Int
  cache : List (Int × Int)
  hits : Nat
  misses : Nat
  deriving DecidableEq, Repr

/-- `TLB.__init__`. -/
def TLB.init (size : Int) : TLB :=
  { size, cache := [], hits := 0, misses := 0 }

/-- `TLB.lookup`: on a hit, count it and move the entry to the
most-recently-used end; on a miss, count it and return nothing. -/
def TLB.lookup (t : TLB) (page_number : Int) : Option Int × TLB :=
  match dictGet t.cache page_number with
  | some f =>
    (some f, { t with hits := t.hits + 1,
                      cache := dictDel t.cache page_number ++ [(page_number, f)] })
  | none => (none, { t with misses := t.misses + 1 })

/-- `TLB.insert`: if the page is already cached, only move it to the MRU end
(keeping the old frame value); otherwise evict the LRU entry when at capacity
(`popitem` on an empty `OrderedDict` raises, hence `none`) and append. -/
def TLB.insert (t : TLB) (page_number frame_number : Int) : Option TLB :=
  match dictGet t.cache page_number with
  | some f0 =>
    some { t with cache := dictDel t.cache page_number ++ [(page_number, f0)] }
  | none =>
    if (t.cache.length : Int) ≥ t.size then
      match t.cache with
      | [] => none
      | _ :: rest => some { t with cache := rest ++ [(page_number, frame_number)] }
    else some { t with cache := t.cache ++ [(page_number, frame_number)] }

/-- `TLB.invalidate`: drop the entry if present. -/
def TLB.invalidate (t : TLB) (page_number : Int) : TLB :=
  { t with cache := dictDel t.cache page_number }

/-! ## replacement_algorithms.py -/

/-- State of the `FIFO` class: the resident pages and the admission-order
queue (plus the inherited `num_frames`). -/
structure FIFO where
  num_frames : Int
  frames : List Int
  queue : List Int
  deriving DecidableEq, Repr

/-- `FIFO.get_victim`: the head of the queue (`queue[0]`). -/
def FIFO.get_victim (s : FIFO) : Option Int := s.queue.head?

/-- `FIFO.access_page`. -/
def FIFO.access_page (s : FIFO) (page_number : Int) :
    Option (Bool × Option Int × FIFO) :=
  if page_number ∈ s.frames then some (false, none, s)
  else
    if (s.frames.length : Int) ≥ s.num_frames then
      match s.get_victim with
      | none => none
      | some v =>
        match pyRemove s.frames v, pyRemove s.queue v with
        | some fs, some qs =>
          some (true, some v,
            { s with frames := fs ++ [page_number], queue := qs ++ [page_number] })
        | _, _ => none
    else
      some (true, none,
        { s with frames := s.frames ++ [page_number],
                 queue := s.queue ++ [page_number] })

/-- State of the `LRU` class. -/
structure LRU where
  num_frames : Int
  frames : List Int
  access_times : List (Int × Nat)
  deriving DecidableEq, Repr

/-- Python `min(iterable-of-keys, key=f)` over a dict scanned in insertion
order: keeps the first binding whose value is strictly smallest. -/
def argminVal (best : Int × Nat) : List (Int × Nat) → Int
  | [] => best.1
  | (k, v) :: t => if v < best.2 then argminVal (k, v) t else argminVal best t

/-- `LRU.get_victim`: `min(access_times, key=access_times.get)` (ValueError on
an empty dict). -/
def LRU.get_victim (s : LRU) : Option Int :=
  match s.access_times with
  | [] => none
  | h :: t => some (argminVal h t)

/-- `LRU.access_page`. -/
def LRU.access_page (s : LRU) (page_number : Int) (time : Nat) :
    Option (Bool × Option Int × LRU) :=
  if page_number ∈ s.frames then
    some (false, none, { s with access_times := dictSet s.access_times page_number time })
  else
    if (s.frames.length : Int) ≥ s.num_frames then
      match s.get_victim with
      | none => none
      | some v =>
        match pyRemove s.frames v, pyDictDel s.access_times v with
        | some fs, some ts =>
          some (true, some v,
            { s with frames := fs ++ [page_number],
                     access_times := dictSet ts page_number time })
        | _, _ => none
    else
      some (true, none,
        { s with frames := s.frames ++ [page_number],
                 access_times := dictSet s.access_times page_number time })

/-- State of the `LFU` class. -/
structure LFU where
  num_frames : Int
  frames : List Int
  access_counts : List (Int × Nat)
  access_times : List (Int × Nat)
  deriving DecidableEq, Repr

/-- `min` of the values of a dict (`min(d.values())`), ValueError when empty. -/
def listMinVal : List (Int × Nat) → Option Nat
  | [] => none
  | (_, v) :: t => some (t.foldl (fun m kv => min m kv.2) v)

/-- Scan of `min(candidates, key=lambda p: access_times[p])` after the first
candidate: keeps the first strictly-smallest key; KeyError (`none`) when a
candidate has no recorded time. -/
def argminTimeAux (times : List (Int × Nat)) (best : Int × Nat) :
    List Int → Option Int
  | [] => some best.1
  | p :: t =>
    match dictGet times p with
    | none => none
    | some tp =>
      if tp < best.2 then argminTimeAux times (p, tp) t
      else argminTimeAux times best t

/-- Python `min(candidates, key=lambda p: access_times[p])`. -/
def argminTime (times : List (Int × Nat)) : List Int → Option Int
  | [] => none
  | p :: t =>
    match dictGet times p with
    | none => none
    | some tp => argminTimeAux times (p, tp) t

/-- `LFU.get_victim`: smallest access count, ties broken by the LRU time. -/
def LFU.get_victim (s : LFU) : Option Int :=
  match listMinVal s.access_counts with
  | none => none
  | some min_count =>
    let candidates :=
      (s.access_counts.filter (fun kv => kv.2 = min_count)).map Prod.fst
    if candidates.length = 1 then candidates.head?
    else argminTime s.access_times candidates

/-- `LFU.access_page`. -/
def LFU.access_page (s : LFU) (page_number : Int) (time : Nat) :
    Option (Bool × Option Int × LFU) :=
  if page_number ∈ s.frames then
    match pyDictIncr s.access_counts page_number with
    | none => none
    | some cs =>
      some (false, none,
        { s with access_counts := cs,
                 access_times := dictSet s.access_times page_number time })
  else
    if (s.frames.length : Int) ≥ s.num_frames then
      match s.get_victim with
      | none => none
      | some v =>
        match pyRemove s.frames v, pyDictDel s.access_counts v,
              pyDictDel s.access_times v with
        | some fs, some cs, some ts =>
          match pyDictIncr (dictSet cs page_number 0) page_number with
          | none => none
          | some cs2 =>
            some (true, some v,
              { s with frames := fs ++ [page_number], access_counts := cs2,
                       access_times := dictSet ts page_number time })
        | _, _, _ => none
    else
      match pyDictIncr (dictSet s.access_counts page_number 0) page_number with
      | none => none
      | some cs2 =>
        some (true, none,
          { s with frames := s.frames ++ [page_number], access_counts := cs2,
                   access_times := dictSet s.access_times page_number time })

/-- State of the `Optimal` class: the full reference string and a cursor. -/
structure Optimal where
  num_frames : Int
  frames : List Int
  reference_string : List Int
  current_index : Nat
  deriving DecidableEq, Repr

/-- First index `≥ i` (scanning the given suffix, whose head sits at absolute
index `i`) holding `p`. -/
def findFromAux (p : Int) : List Int → Nat → Option Nat
  | [], _ => none
  | x :: t, i => if x = p then some i else findFromAux p t (i + 1)

/-- `for i in range(start, len(refs)): if refs[i] == page: next_use = i; break`
— `none` models `float('inf')` (no future use). -/
def nextUse (refs : List Int) (start : Nat) (p : Int) : Option Nat :=
  findFromAux p (refs.drop start) start

/-- Comparison `next_use > farthest_use` where `farthest_use` starts at `-1`
(encoded `none`) and `float('inf')` is `some none`. -/
def nuGt : Option Nat → Option (Option Nat) → Bool
  | _, none => true
  | none, some none => false
  | some _, some none => false
  | none, some (some _) => true
  | some x, some (some y) => decide (y < x)

/-- The scan of `Optimal.get_victim` over the resident pages. -/
def Optimal.victimScan (refs : List Int) (idx : Nat) :
    List Int → Option Int → Option (Option Nat) → Option Int
  | [], victim, _ => victim
  | page :: t, victim, far =>
    let nu := nextUse refs idx page
    if nuGt nu far then Optimal.victimScan refs idx t (some page) (some nu)
    else Optimal.victimScan refs idx t victim far

/-- `Optimal.get_victim`: the resident page whose next use (searched from
`current_index`) is farthest; `None` when there are no frames. -/
def Optimal.get_victim (s : Optimal) : Option Int :=
  Optimal.victimScan s.reference_string s.current_index s.frames none none

/-- `Optimal.access_page` (note: `current_index` advances once per *call*,
and the simulator only calls this on page faults). -/
def Optimal.access_page (s : Optimal) (page_number : Int) :
    Option (Bool × Option Int × Optimal) :=
  if page_number ∈ s.frames then
    some (false, none, { s with current_index := s.current_index + 1 })
  else
    if (s.frames.length : Int) ≥ s.num_frames then
      match s.get_victim with
      | none => none
      | some v =>
        match pyRemove s.frames v with
        | none => none
        | some fs =>
          some (true, some v,
            { s with frames := fs ++ [page_number],
                     current_index := s.current_index + 1 })
    else
      some (true, none,
        { s with frames := s.frames ++ [page_number],
                 current_index := s.current_index + 1 })

/-- State of the `Clock` class. -/
structure Clock where
  num_frames : Int
  frames : List Int
  reference_bits : List (Int × Nat)
  clock_hand : Nat
  deriving DecidableEq, Repr

/-- The `while True` loop of `Clock.get_victim`, made total by fuel; each unit
of fuel is one loop iteration.  Returns the victim together with the updated
reference bits and hand; `none` is an exception (bad index / missing bit) or
fuel exhaustion. -/
def clockScan : Nat → List Int → List (Int × Nat) → Nat →
    Option (Int × List (Int × Nat) × Nat)
  | 0, _, _, _ => none
  | fuel + 1, frames, bits, hand =>
    match frames.get? hand with
    | none => none
    | some page =>
      match dictGet bits page with
      | none => none
      | some b =>
        if b = 0 then some (page, bits, (hand + 1) % frames.length)
        else clockScan fuel frames (dictSet bits page 0) ((hand + 1) % frames.length)

/-- `Clock.get_victim`: the loop always returns within `#frames + 1`
iterations when it does not raise, so ample fuel makes the embedding exact. -/
def Clock.get_victim (s : Clock) : Option (Int × Clock) :=
  (clockScan (2 * s.frames.length + 2) s.frames s.reference_bits s.clock_hand).map
    fun r => (r.1, { s with reference_bits := r.2.1, clock_hand := r.2.2 })

/-- `Clock.access_page`: on an eviction the victim's slot in `frames` is
overwritten in place (`frames[victim_index] = page_number`). -/
def Clock.access_page (s : Clock) (page_number : Int) :
    Option (Bool × Option Int × Clock) :=
  if page_number ∈ s.frames then
    some (false, none,
      { s with reference_bits := dictSet s.reference_bits page_number 1 })
  else
    if (s.frames.length : Int) ≥ s.num_frames then
      match s.get_victim with
      | none => none
      | some (v, s1) =>
        match s1.frames.findIdx? (fun x => x = v) with
        | none => none
        | some vi =>
          match pyDictDel s1.reference_bits v with
          | none => none
          | some bs =>
            some (true, some v,
              { s1 with frames := s1.frames.set vi page_number,
                        reference_bits := dictSet bs page_number 1 })
    else
      some (true, none,
        { s with frames := s.frames ++ [page_number],
                 reference_bits := dictSet s.reference_bits page_number 1 })

/-- The polymorphic replacement policy (abstract base class with five
subclasses, as a tagged sum). -/
inductive Alg where
  | fifo : FIFO → Alg
  | lru : LRU → Alg
  | lfu : LFU → Alg
  | optimal : Optimal → Alg
  | clock : Clock → Alg
  deriving DecidableEq, Repr

/-- Dispatch of `algorithm.access_page(page_number, time, is_write)`. -/
def Alg.access_page (a : Alg) (page_number : Int) (time : Nat) :
    Option (Bool × Option Int × Alg) :=
  match a with
  | .fifo s => (s.access_page page_number).map fun r => (r.1, r.2.1, .fifo r.2.2)
  | .lru s => (s.access_page page_number time).map fun r => (r.1, r.2.1, .lru r.2.2)
  | .lfu s => (s.access_page page_number time).map fun r => (r.1, r.2.1, .lfu r.2.2)
  | .optimal s => (s.access_page page_number).map fun r => (r.1, r.2.1, .optimal r.2.2)
  | .clock s => (s.access_page page_number).map fun r => (r.1, r.2.1, .clock r.2.2)

/-! ## virtual_memory.py : VirtualMemorySimulator -/

/-- The `algorithm_name` argument of the constructor. -/
inductive AlgName where
  | FIFO | LRU | LFU | Optimal | Clock
  deriving DecidableEq, Repr

/-- `VirtualMemorySimulator` state. -/
structure Simulator where
  num_pages : Int
  num_frames : Int
  page_size : Int
  page_table : PageTable
  tlb : TLB
  alg : Alg
  page_faults : Nat
  memory_accesses : Nat
  current_time : Nat
  free_frames : List Int
  page_to_frame : List (Int × Int)
  deriving DecidableEq, Repr

/-- `VirtualMemorySimulator.__init__`: the only raises are for `Optimal`
without a reference string (and an unknown algorithm name, which the enum
excludes); no size parameter is validated. -/
def mkSimulator (num_pages num_frames page_size tlb_size : Int)
    (algorithm_name : AlgName) (reference_string : Option (List Int)) :
    Option Simulator :=
  let alg? : Option Alg :=
    match algorithm_name with
    | .FIFO => some (.fifo { num_frames, frames := [], queue := [] })
    | .LRU => some (.lru { num_frames, frames := [], access_times := [] })
    | .LFU => some (.lfu { num_frames, frames := [], access_counts := [],
                           access_times := [] })
    | .Optimal =>
      match reference_string with
      | none => none
      | some rs => some (.optimal { num_frames, frames := [],
                                    reference_string := rs, current_index := 0 })
    | .Clock => some (.clock { num_frames, frames := [], reference_bits := [],
                               clock_hand := 0 })
  alg?.map fun alg =>
    { num_pages, num_frames, page_size,
      page_table := PageTable.init num_pages,
      tlb := TLB.init tlb_size, alg,
      page_faults := 0, memory_accesses := 0, current_time := 0,
      free_frames := (List.range num_frames.toNat).map Int.ofNat,
      page_to_frame := [] }

/-- `VirtualMemorySimulator._handle_page_fault`: returns the frame chosen for
the faulting page together with the updated simulator. -/
def handlePageFault (s : Simulator) (page_number : Int) :
    Option (Int × Simulator) :=
  match s.alg.access_page page_number s.current_time with
  | none => none
  | some (_, victim?, alg1) =>
    match victim? with
    | some v =>
      match dictGet s.page_to_frame v with
      | none => none
      | some fv =>
        match s.page_table.invalidate v with
        | none => none
        | some pt1 =>
          match pt1.set_frame page_number fv with
          | none => none
          | some pt2 =>
            some (fv,
              { s with alg := alg1, page_table := pt2,
                       tlb := s.tlb.invalidate v,
                       page_to_frame :=
                         dictSet (dictDel s.page_to_frame v) page_number fv })
    | none =>
      match s.free_frames with
      | [] => none
      | f :: rest =>
        match s.page_table.set_frame page_number f with
        | none => none
        | some pt2 =>
          some (f,
            { s with alg := alg1, page_table := pt2, free_frames := rest,
                     page_to_frame := dictSet s.page_to_frame page_number f })

/-- `VirtualMemorySimulator.translate_address`: returns
`(physical_address, page_fault, tlb_hit)` and the updated simulator. -/
def translate (s0 : Simulator) (virtual_address : Int) (is_write : Bool) :
    Option ((Int × Bool × Bool) × Simulator) :=
  let s := { s0 with memory_accesses := s0.memory_accesses + 1,
                     current_time := s0.current_time + 1 }
  match pyFdiv virtual_address s.page_size, pyFmod virtual_address s.page_size with
  | some page_number, some offset =>
    let lr := s.tlb.lookup page_number
    let s1 := { s with tlb := lr.2 }
    let finish := fun (frame_number : Int) (page_fault tlb_hit : Bool)
        (s2 : Simulator) =>
      match s2.page_table.update_access page_number s2.current_time is_write with
      | none => none
      | some pt =>
        some ((frame_number * s2.page_size + offset, page_fault, tlb_hit),
              { s2 with page_table := pt })
    match lr.1 with
    | some f => finish f false true s1
    | none =>
      match s1.page_table.is_valid page_number with
      | none => none
      | some valid =>
        if valid then
          match s1.page_table.get_frame_number page_number with
          | some (some f) =>
            match s1.tlb.insert page_number f with
            | none => none
            | some tlb2 => finish f false false { s1 with tlb := tlb2 }
          | _ => none
        else
          match handlePageFault
              { s1 with page_faults := s1.page_faults + 1 } page_number with
          | none => none
          | some (f, s2) =>
            match s2.tlb.insert page_number f with
            | none => none
            | some tlb2 => finish f true false { s2 with tlb := tlb2 }
  | _, _ => none

/-- `VirtualMemorySimulator.run_trace`: translate `page * page_size` for each
entry in order, a write when the entry's index is listed. -/
def runTraceAux (writes : List Nat) : Simulator → List Int → Nat → Option Simulator
  | s, [], _ => some s
  | s, p :: t, i =>
    match translate s (p * s.page_size) (decide (i ∈ writes)) with
    | none => none
    | some (_, s1) => runTraceAux writes s1 t (i + 1)

/-- `run_trace` with its default (no writes). -/
def run_trace (s : Simulator) (reference_string : List Int)
    (write_operations : List Nat := []) : Option Simulator :=
  runTraceAux write_operations s reference_string 0

/-- Total page faults after constructing a simulator and running a trace. -/
def faultsAfter (ms : Option Simulator) (reference_string : List Int) :
    Option Nat :=
  (ms.bind (run_trace · reference_string)).map Simulator.page_faults

/-! ## Concrete states used by witnesses and counterexamples -/

/-- A small concrete simulator: 4 pages, 2 frames, page size 4, TLB size 2,
FIFO. -/
def sim4 : Simulator := (mkSimulator 4 2 4 2 .FIFO none).get rfl

/-- `sim4` after one translated reference to address 0. -/
def sim4a : Simulator := ((translate sim4 0 false).get rfl).2

/-- The scenario refuting C1/C3 as literally stated: 4 pages, **1 frame**,
page size 4, TLB size 2, FIFO, after the calls `translate 12`,
`translate (-4)`, `translate 0` (page 3 is loaded, aliased by page `-1`
through Python negative indexing, then evicted; the TLB entry for `-1`
survives the eviction). -/
def simNegA : Simulator := (mkSimulator 4 1 4 2 .FIFO none).get rfl

/-- `simNegA` after `translate 12` (page 3 loaded into frame 0). -/
def simNegB : Simulator := ((translate simNegA 12 false).get (by decide)).2

/-- `simNegB` after `translate (-4)` (page `-1`, an alias of entry 3, is
accepted and cached in the TLB). -/
def simNegC : Simulator := ((translate simNegB (-4) false).get (by decide)).2

/-- `simNegC` after `translate 0` (page 3 evicted; `tlb.invalidate(3)` leaves
the alias entry `-1 ↦ 0` stale). -/
def simNeg : Simulator := ((translate simNegC 0 false).get (by decide)).2

end VMS

namespace VMS

/-! ## Basic lemmas about the Python-dict model -/

theorem dictGet_mem {α : Type} {l : List (Int × α)} {k : Int} {v : α}
    (h : dictGet l k = some v) : (k, v) ∈ l := by
  induction l with
  | nil => simp [dictGet] at h
  | cons hd t ih =>
    rcases hd with ⟨k0, v0⟩
    unfold dictGet at h
    by_cases hk : k0 = k
    · rw [if_pos hk] at h
      obtain rfl : v0 = v := by injection h
      obtain rfl : k0 = k := hk
      exact List.mem_cons_self _ _
    · rw [if_neg hk] at h
      exact List.mem_cons_of_mem _ (ih h)

theorem dictGet_isSome_iff_mem_keys {α : Type} {l : List (Int × α)} {k : Int} :
    (dictGet l k).isSome = true ↔ k ∈ l.map Prod.fst := by
  induction l with
  | nil => simp [dictGet]
  | cons hd t ih =>
    rcases hd with ⟨k', v'⟩
    unfold dictGet
    by_cases hk : k' = k
    · subst hk
      simp
    · have hk2 : ¬k = k' := fun h => hk h.symm
      simp [hk, hk2, ih]

theorem dictGet_eq_none_iff {α : Type} {l : List (Int × α)} {k : Int} :
    dictGet l k = none ↔ k ∉ l.map Prod.fst := by
  rw [← dictGet_isSome_iff_mem_keys]
  cases h : dictGet l k <;> simp [h]

theorem dictGet_of_mem_nodup {α : Type} {l : List (Int × α)} {k : Int} {v : α}
    (nd : (l.map Prod.fst).Nodup) (h : (k, v) ∈ l) : dictGet l k = some v := by
  induction l with
  | nil => simp at h
  | cons hd t ih =>
    rcases hd with ⟨k', v'⟩
    simp only [List.map_cons, List.nodup_cons] at nd
    rcases List.mem_cons.mp h with h1 | h1
    · cases h1
      simp [dictGet]
    · have hk : k' ≠ k := by
        intro he
        exact nd.1 (he ▸ (List.mem_map.mpr ⟨(k, v), h1, rfl⟩))
      simp only [dictGet, if_neg hk]
      exact ih nd.2 h1

theorem dictGet_append {α : Type} (l1 l2 : List (Int × α)) (k : Int) :
    dictGet (l1 ++ l2) k =
      match dictGet l1 k with
      | some v => some v
      | none => dictGet l2 k := by
  induction l1 with
  | nil => simp [dictGet]
  | cons hd t ih =>
    rcases hd with ⟨k', v'⟩
    by_cases hk : k' = k <;> simp [dictGet, hk, ih]

theorem dictGet_dictSet_self {α : Type} (l : List (Int × α)) (k : Int) (v : α) :
    dictGet (dictSet l k v) k = some v := by
  induction l with
  | nil => simp [dictGet, dictSet]
  | cons hd t ih =>
    rcases hd with ⟨k', v'⟩
    by_cases hk : k' = k <;> simp [dictGet, dictSet, hk, ih]

theorem dictGet_dictSet_ne {α : Type} (l : List (Int × α)) (k k' : Int) (v : α)
    (h : k' ≠ k) : dictGet (dictSet l k v) k' = dictGet l k' := by
  have h2 : ¬k = k' := fun he => h he.symm
  induction l with
  | nil => simp [dictGet, dictSet, h2]
  | cons hd t ih =>
    rcases hd with ⟨k0, v0⟩
    by_cases hk : k0 = k
    · subst hk
      simp [dictSet, dictGet, h, h2]
    · by_cases hk' : k0 = k' <;> simp [dictSet, dictGet, hk, hk', h, ih]

theorem dictGet_dictDel_ne {α : Type} (l : List (Int × α)) (k k' : Int)
    (h : k' ≠ k) : dictGet (dictDel l k) k' = dictGet l k' := by
  have h2 : ¬k = k' := fun he => h he.symm
  induction l with
  | nil => simp [dictDel]
  | cons hd t ih =>
    rcases hd with ⟨k0, v0⟩
    by_cases hk : k0 = k
    · subst hk
      simp [dictDel, dictGet, h, h2]
    · by_cases hk' : k0 = k' <;> simp [dictDel, dictGet, hk, hk', h, ih]

theorem keys_dictDel_subset {α : Type} (l : List (Int × α)) (k : Int) :
    ∀ x, x ∈ (dictDel l k).map Prod.fst → x ∈ l.map Prod.fst := by
  induction l with
  | nil => simp [dictDel]
  | cons hd t ih =>
    rcases hd with ⟨k0, v0⟩
    by_cases hk : k0 = k
    · subst hk
      intro x hx
      simp only [dictDel, if_pos rfl] at hx
      simp only [List.map_cons, List.mem_cons]
      exact Or.inr hx
    · intro x hx
      simp only [dictDel, if_neg hk, List.map_cons, List.mem_cons] at hx ⊢
      rcases hx with hx | hx
      · exact Or.inl hx
      · exact Or.inr (ih x hx)

theorem keys_dictDel_nodup {α : Type} {l : List (Int × α)} (k : Int)
    (nd : (l.map Prod.fst).Nodup) : ((dictDel l k).map Prod.fst).Nodup := by
  induction l with
  | nil => simp [dictDel]
  | cons hd t ih =>
    rcases hd with ⟨k0, v0⟩
    simp only [List.map_cons, List.nodup_cons] at nd
    by_cases hk : k0 = k
    · subst hk
      simpa [dictDel] using nd.2
    · simp only [dictDel, if_neg hk, List.map_cons, List.nodup_cons]
      exact ⟨fun hx => nd.1 (keys_dictDel_subset t k _ hx), ih nd.2⟩

theorem not_mem_keys_dictDel_self {α : Type} {l : List (Int × α)} {k : Int}
    (nd : (l.map Prod.fst).Nodup) : k ∉ (dictDel l k).map Prod.fst := by
  induction l with
  | nil => simp [dictDel]
  | cons hd t ih =>
    rcases hd with ⟨k0, v0⟩
    simp only [List.map_cons, List.nodup_cons] at nd
    by_cases hk : k0 = k
    · subst hk
      simpa [dictDel] using nd.1
    · simp only [dictDel, if_neg hk, List.map_cons, List.mem_cons]
      rintro (h | h)
      · exact hk h.symm
      · exact ih nd.2 h

theorem dictGet_dictDel_self {α : Type} {l : List (Int × α)} {k : Int}
    (nd : (l.map Prod.fst).Nodup) : dictGet (dictDel l k) k = none :=
  dictGet_eq_none_iff.mpr (not_mem_keys_dictDel_self nd)

theorem keys_dictSet {α : Type} (l : List (Int × α)) (k : Int) (v : α) :
    (dictSet l k v).map Prod.fst =
      if k ∈ l.map Prod.fst then l.map Prod.fst else l.map Prod.fst ++ [k] := by
  induction l with
  | nil => simp [dictSet]
  | cons hd t ih =>
    rcases hd with ⟨k0, v0⟩
    by_cases hk : k0 = k
    · subst hk
      simp [dictSet]
    · have hne : ¬k = k0 := fun h => hk h.symm
      by_cases hmem : k ∈ t.map Prod.fst <;>
        simp [dictSet, hk, hne, hmem, ih]

theorem keys_dictSet_nodup {α : Type} {l : List (Int × α)} (k : Int) (v : α)
    (nd : (l.map Prod.fst).Nodup) : ((dictSet l k v).map Prod.fst).Nodup := by
  rw [keys_dictSet]
  split
  · exact nd
  · rename_i hmem
    have hk : ∀ a ∈ l.map Prod.fst, a ≠ k := by
      intro a ha he
      subst he
      exact hmem ha
    simp only [List.nodup_append, List.nodup_cons, List.not_mem_nil,
      not_false_eq_true, List.nodup_nil, and_true, true_and]
    refine ⟨nd, ?_⟩
    intro x hx
    simp only [List.mem_singleton]
    intro he
    exact hmem (he ▸ hx)

theorem pyRemove_isSome_of_mem {l : List Int} {x : Int} (h : x ∈ l) :
    (pyRemove l x).isSome = true := by
  induction l with
  | nil => simp at h
  | cons y t ih =>
    unfold pyRemove
    by_cases hy : y = x
    · simp [hy]
    · rcases List.mem_cons.mp h with h1 | h1
      · exact absurd h1.symm hy
      · simpa [hy] using ih h1

/-! ## C7 : FIFO scenario A -/

/-- C7: running the simulator (test-suite configuration: 10 pages, 3 frames,
page size 4096, TLB size 4) with the FIFO policy over the reference string
`[1,2,3,4,1,2,5,1,2,3,4,5]` yields exactly 9 page faults. -/
theorem c7_fifo_scenario_nine_faults :
    faultsAfter (mkSimulator 10 3 4096 4 .FIFO none)
      [1, 2, 3, 4, 1, 2, 5, 1, 2, 3, 4, 5] = some 9 := by rfl

/-! ## C2 : the Optimal policy is *not* always at least as good -/

/-- C2 (evaluation at the failing input): on the reference string
`[0,1,0,1,2,1]` with 2 frames (3 pages, page size 4, TLB size 2), the
simulator configured with Optimal incurs 4 page faults while FIFO incurs
only 3 — because `Optimal.current_index` advances only on page faults (the
simulator calls `access_page` solely from `_handle_page_fault`), its victim
search scans from a stale position and evicts a page that is still needed. -/
theorem c2_optimal_worse_than_fifo :
    faultsAfter (mkSimulator 3 2 4 2 .Optimal (some [0, 1, 0, 1, 2, 1]))
        [0, 1, 0, 1, 2, 1] = some 4 ∧
      faultsAfter (mkSimulator 3 2 4 2 .FIFO none) [0, 1, 0, 1, 2, 1] =
        some 3 := ⟨rfl, rfl⟩

/-! ## C4 : constructor validation -/

/-- C4 (counterexample): the constructor does **not** fail when
`numFrames > numPages` (here 5 frames, 2 pages) nor when every size parameter
is non-positive — both constructions succeed. -/
theorem c4_counterexample_no_validation :
    (mkSimulator 2 5 4 2 .FIFO none).isSome = true ∧
      (mkSimulator 0 0 0 0 .FIFO none).isSome = true := ⟨rfl, rfl⟩

/-- C4 (amended): construction fails iff the policy is Optimal and no
reference string is supplied; no other parameter combination is rejected. -/
theorem c4_amended_constructor_success (np nf ps ts : Int) (name : AlgName)
    (rs : Option (List Int)) :
    (mkSimulator np nf ps ts name rs).isSome = true ↔
      ¬(name = AlgName.Optimal ∧ rs = none) := by
  cases name <;> cases rs <;> simp [mkSimulator]

/-! ## C5 : out-of-range pages -/

/-- C5 (evaluation at the failing input): on a fresh simulator with 4 pages,
`translate_address (-4)` references page `-1` — outside `[0, num_pages)` —
yet the call is silently accepted: it returns normally, loads the page under
the key `-1`, and (through Python negative indexing) marks page-table entry 3
valid. -/
theorem c5_negative_page_silently_accepted :
    ((mkSimulator 4 2 4 2 .FIFO none).bind
        (fun s => translate s (-4) false)).isSome = true ∧
      ((mkSimulator 4 2 4 2 .FIFO none).bind
          (fun s => translate s (-4) false)).map
        (fun r => (r.2.page_to_frame, r.2.page_table.is_valid 3)) =
        some ([(-1, 0)], some true) := ⟨rfl, rfl⟩

/-! ## Shape of a successful translation -/

theorem handlePageFault_fields {s : Simulator} {p f : Int} {s' : Simulator}
    (h : handlePageFault s p = some (f, s')) :
    s'.page_size = s.page_size ∧ s'.num_pages = s.num_pages ∧
      s'.current_time = s.current_time := by
  unfold handlePageFault at h
  cases hap : s.alg.access_page p s.current_time with
  | none => exact Option.noConfusion (by simp only [hap] at h; exact h : (none : Option (Int × Simulator)) = some (f, s'))
  | some r =>
    obtain ⟨fa, victim?, alg1⟩ := r
    simp only [hap] at h
    cases victim? with
    | some v =>
      cases hg : dictGet s.page_to_frame v with
      | none => exact Option.noConfusion (by simp only [hg] at h; exact h : (none : Option (Int × Simulator)) = some (f, s'))
      | some fv =>
        simp only [hg] at h
        cases hi : s.page_table.invalidate v with
        | none => exact Option.noConfusion (by simp only [hi] at h; exact h : (none : Option (Int × Simulator)) = some (f, s'))
        | some pt1 =>
          simp only [hi] at h
          cases hsf : pt1.set_frame p fv with
          | none => exact Option.noConfusion (by simp only [hsf] at h; exact h : (none : Option (Int × Simulator)) = some (f, s'))
          | some pt2 =>
            simp only [hsf, Option.some.injEq, Prod.mk.injEq] at h
            obtain ⟨h1, h2⟩ := h
            subst h2
            exact ⟨rfl, rfl, rfl⟩
    | none =>
      cases hff : s.free_frames with
      | nil => exact Option.noConfusion (by simp only [hff] at h; exact h : (none : Option (Int × Simulator)) = some (f, s'))
      | cons f0 rest =>
        simp only [hff] at h
        cases hsf : s.page_table.set_frame p f0 with
        | none => exact Option.noConfusion (by simp only [hsf] at h; exact h : (none : Option (Int × Simulator)) = some (f, s'))
        | some pt2 =>
          simp only [hsf, Option.some.injEq, Prod.mk.injEq] at h
          obtain ⟨h1, h2⟩ := h
          subst h2
          exact ⟨rfl, rfl, rfl⟩

theorem translate_shape {s : Simulator} {va : Int} {w : Bool} {pa : Int}
    {fault hit : Bool} {s' : Simulator}
    (h : translate s va w = some ((pa, fault, hit), s')) :
    s.page_size ≠ 0 ∧
      (∃ f : Int, pa = f * s.page_size + Int.fmod va s.page_size) ∧
      (fault = false → s'.alg = s.alg) := by
  by_cases hps : s.page_size = 0
  · unfold translate at h
    simp [pyFdiv, hps] at h
  · refine ⟨hps, ?_⟩
    unfold translate at h
    simp only [pyFdiv, pyFmod, if_neg hps, TLB.lookup] at h
    cases hc : dictGet s.tlb.cache (Int.fdiv va s.page_size) with
    | some f0 =>
      simp only [hc] at h
      cases hu : s.page_table.update_access (Int.fdiv va s.page_size)
          (s.current_time + 1) w with
      | none => exact Option.noConfusion (by simp only [hu] at h; exact h : (none : Option ((Int × Bool × Bool) × Simulator)) = some ((pa, fault, hit), s'))
      | some pt =>
        simp only [hu, Option.some.injEq, Prod.mk.injEq] at h
        obtain ⟨⟨hpa, hfault, hhit⟩, hs⟩ := h
        subst hs
        exact ⟨⟨f0, hpa.symm⟩, fun _ => rfl⟩
    | none =>
      simp only [hc] at h
      cases hv : s.page_table.is_valid (Int.fdiv va s.page_size) with
      | none => exact Option.noConfusion (by simp only [hv] at h; exact h : (none : Option ((Int × Bool × Bool) × Simulator)) = some ((pa, fault, hit), s'))
      | some valid =>
        simp only [hv] at h
        by_cases hval : valid = true
        · -- page-table hit
          rw [if_pos hval] at h
          cases hf : s.page_table.get_frame_number (Int.fdiv va s.page_size) with
          | none => exact Option.noConfusion (by simp only [hf] at h; exact h : (none : Option ((Int × Bool × Bool) × Simulator)) = some ((pa, fault, hit), s'))
          | some ov =>
            cases ov with
            | none => exact Option.noConfusion (by simp only [hf] at h; exact h : (none : Option ((Int × Bool × Bool) × Simulator)) = some ((pa, fault, hit), s'))
            | some f0 =>
              simp only [hf] at h
              cases hins : TLB.insert
                  ⟨s.tlb.size, s.tlb.cache, s.tlb.hits, s.tlb.misses + 1⟩
                  (Int.fdiv va s.page_size) f0 with
              | none => exact Option.noConfusion (by simp only [hins] at h; exact h : (none : Option ((Int × Bool × Bool) × Simulator)) = some ((pa, fault, hit), s'))
              | some tlb2 =>
                simp only [hins] at h
                cases hu : s.page_table.update_access (Int.fdiv va s.page_size)
                    (s.current_time + 1) w with
                | none => exact Option.noConfusion (by simp only [hu] at h; exact h : (none : Option ((Int × Bool × Bool) × Simulator)) = some ((pa, fault, hit), s'))
                | some pt =>
                  simp only [hu, Option.some.injEq, Prod.mk.injEq] at h
                  obtain ⟨⟨hpa, hfault, hhit⟩, hs⟩ := h
                  subst hs
                  exact ⟨⟨f0, hpa.symm⟩, fun _ => rfl⟩
        · -- page fault
          rw [if_neg hval] at h
          split at h
          · exact Option.noConfusion h
          · rename_i f0 s2 hpf
            have hfields := handlePageFault_fields hpf
            cases hins : TLB.insert s2.tlb (Int.fdiv va s.page_size) f0 with
            | none => exact Option.noConfusion (by simp only [hins] at h; exact h : (none : Option ((Int × Bool × Bool) × Simulator)) = some ((pa, fault, hit), s'))
            | some tlb2 =>
              simp only [hins] at h
              cases hu : s2.page_table.update_access (Int.fdiv va s.page_size)
                  s2.current_time w with
              | none => exact Option.noConfusion (by simp only [hu] at h; exact h : (none : Option ((Int × Bool × Bool) × Simulator)) = some ((pa, fault, hit), s'))
              | some pt =>
                simp only [hu, Option.some.injEq, Prod.mk.injEq] at h
                obtain ⟨⟨hpa, hfault, hhit⟩, hs⟩ := h
                refine ⟨⟨f0, ?_⟩,
                  fun hff => absurd (hfault.trans hff) (by simp)⟩
                rw [← hpa]
                have : s2.page_size = s.page_size := hfields.1
                rw [this]

/-! ## C8 : offsets are preserved -/

/-- C8: whenever `translate_address` returns (page size positive), the
physical address agrees with the virtual address modulo the page size: the
offset is carried over unchanged. -/
theorem c8_offset_preserved (s : Simulator) (va : Int) (w : Bool) (pa : Int)
    (fault hit : Bool) (s' : Simulator) (hps : 0 < s.page_size)
    (h : translate s va w = some ((pa, fault, hit), s')) :
    Int.fmod pa s.page_size = Int.fmod va s.page_size := by
  obtain ⟨-, ⟨f, hpa⟩, -⟩ := translate_shape h
  subst hpa
  have hps' : (0 : Int) ≤ s.page_size := le_of_lt hps
  rw [Int.fmod_eq_emod _ hps', Int.fmod_eq_emod _ hps', Int.add_comm,
    Int.add_mul_emod_self, Int.emod_emod_of_dvd _ dvd_rfl]

/-- C8 witness: a concrete successful translation on `sim4` at address 5. -/
theorem c8_offset_preserved_witness :
    0 < sim4.page_size ∧
      Int.fmod (((translate sim4 5 false).get (by decide)).1.1) sim4.page_size =
        Int.fmod 5 sim4.page_size := by
  refine ⟨by decide, ?_⟩
  exact c8_offset_preserved sim4 5 false
    (((translate sim4 5 false).get (by decide)).1.1)
    (((translate sim4 5 false).get (by decide)).1.2.1)
    (((translate sim4 5 false).get (by decide)).1.2.2)
    (((translate sim4 5 false).get (by decide)).2)
    (by decide) (by decide)

/-! ## LFU victim selection (C6) -/

theorem foldlMin_le (t : List (Int × Nat)) :
    ∀ v : Nat, t.foldl (fun m kv => min m kv.2) v ≤ v ∧
      ∀ kv ∈ t, t.foldl (fun m kv => min m kv.2) v ≤ kv.2 := by
  induction t with
  | nil => exact fun v => ⟨le_refl v, by simp⟩
  | cons kv0 t ih =>
    intro v
    simp only [List.foldl_cons]
    obtain ⟨h1, h2⟩ := ih (min v kv0.2)
    refine ⟨le_trans h1 (min_le_left _ _), ?_⟩
    intro kv hkv
    rcases List.mem_cons.mp hkv with h | h
    · subst h
      exact le_trans h1 (min_le_right _ _)
    · exact h2 kv h

theorem foldlMin_attained (t : List (Int × Nat)) :
    ∀ v : Nat, t.foldl (fun m kv => min m kv.2) v = v ∨
      ∃ kv ∈ t, kv.2 = t.foldl (fun m kv => min m kv.2) v := by
  induction t with
  | nil => exact fun v => Or.inl rfl
  | cons kv0 t ih =>
    intro v
    simp only [List.foldl_cons]
    rcases ih (min v kv0.2) with h | ⟨kv, hkv, he⟩
    · rw [h]
      rcases le_total v kv0.2 with hle | hle
      · exact Or.inl (min_eq_left hle)
      · exact Or.inr ⟨kv0, List.mem_cons_self _ _, (min_eq_right hle).symm⟩
    · exact Or.inr ⟨kv, List.mem_cons_of_mem _ hkv, he⟩

theorem listMinVal_spec (l : List (Int × Nat)) (hne : l ≠ []) :
    ∃ m, listMinVal l = some m ∧ (∀ kv ∈ l, m ≤ kv.2) ∧ ∃ kv ∈ l, kv.2 = m := by
  cases l with
  | nil => exact absurd rfl hne
  | cons kv0 t =>
    rcases kv0 with ⟨k0, v0⟩
    have heq : listMinVal ((k0, v0) :: t) =
        some (t.foldl (fun m kv => min m kv.2) v0) := rfl
    refine ⟨t.foldl (fun m kv => min m kv.2) v0, heq, ?_, ?_⟩
    · intro kv hkv
      rcases List.mem_cons.mp hkv with h | h
      · subst h
        exact (foldlMin_le t v0).1
      · exact (foldlMin_le t v0).2 kv h
    · rcases foldlMin_attained t v0 with h | ⟨kv, hkv, he⟩
      · exact ⟨(k0, v0), List.mem_cons_self _ _, h.symm⟩
      · exact ⟨kv, List.mem_cons_of_mem _ hkv, he⟩

theorem argminTimeAux_spec (times : List (Int × Nat)) :
    ∀ (cands : List Int) (best : Int × Nat),
      dictGet times best.1 = some best.2 →
      (∀ q ∈ cands, (dictGet times q).isSome = true) →
      ∃ r tr, argminTimeAux times best cands = some r ∧
        dictGet times r = some tr ∧ tr ≤ best.2 ∧
        (∀ q tq, q ∈ cands → dictGet times q = some tq → tr ≤ tq) ∧
        (r = best.1 ∨ r ∈ cands) := by
  intro cands
  induction cands with
  | nil =>
    intro best hbest _
    exact ⟨best.1, best.2, rfl, hbest, le_refl _, by simp, Or.inl rfl⟩
  | cons c0 crest ih =>
    intro best hbest hall
    obtain ⟨t0, ht0⟩ := Option.isSome_iff_exists.mp (hall c0 (List.mem_cons_self _ _))
    have hall' : ∀ q ∈ crest, (dictGet times q).isSome = true :=
      fun q hq => hall q (List.mem_cons_of_mem _ hq)
    unfold argminTimeAux
    simp only [ht0]
    by_cases hlt : t0 < best.2
    · rw [if_pos hlt]
      obtain ⟨r, tr, hr, htr, hle, hmin, hor⟩ := ih (c0, t0) ht0 hall'
      refine ⟨r, tr, hr, htr, le_trans hle (le_of_lt hlt), ?_, ?_⟩
      · intro q tq hq htq
        rcases List.mem_cons.mp hq with h | h
        · subst h
          rw [ht0] at htq
          injection htq with htq
          exact htq ▸ hle
        · exact hmin q tq h htq
      · rcases hor with h | h
        · right
          rw [h]
          exact List.mem_cons_self _ _
        · exact Or.inr (List.mem_cons_of_mem _ h)
    · rw [if_neg hlt]
      obtain ⟨r, tr, hr, htr, hle, hmin, hor⟩ := ih best hbest hall'
      refine ⟨r, tr, hr, htr, hle, ?_, ?_⟩
      · intro q tq hq htq
        rcases List.mem_cons.mp hq with h | h
        · subst h
          rw [ht0] at htq
          injection htq with htq
          subst htq
          exact le_trans hle (le_of_not_lt hlt)
        · exact hmin q tq h htq
      · rcases hor with h | h
        · exact Or.inl h
        · exact Or.inr (List.mem_cons_of_mem _ h)

theorem argminTime_spec (times : List (Int × Nat)) (cands : List Int)
    (hne : cands ≠ [])
    (hall : ∀ q ∈ cands, (dictGet times q).isSome = true) :
    ∃ r tr, argminTime times cands = some r ∧ dictGet times r = some tr ∧
      r ∈ cands ∧ ∀ q tq, q ∈ cands → dictGet times q = some tq → tr ≤ tq := by
  cases cands with
  | nil => exact absurd rfl hne
  | cons c0 crest =>
    obtain ⟨t0, ht0⟩ := Option.isSome_iff_exists.mp (hall c0 (List.mem_cons_self _ _))
    have hall' : ∀ q ∈ crest, (dictGet times q).isSome = true :=
      fun q hq => hall q (List.mem_cons_of_mem _ hq)
    obtain ⟨r, tr, hr, htr, hle, hmin, hor⟩ :=
      argminTimeAux_spec times crest (c0, t0) ht0 hall'
    refine ⟨r, tr, ?_, htr, ?_, ?_⟩
    · unfold argminTime
      simp only [ht0]
      exact hr
    · rcases hor with h | h
      · exact h ▸ List.mem_cons_self _ _
      · exact List.mem_cons_of_mem _ h
    · intro q tq hq htq
      rcases List.mem_cons.mp hq with h | h
      · subst h
        rw [ht0] at htq
        injection htq with htq
        exact htq ▸ hle
      · exact hmin q tq h htq

theorem mem_lfu_candidates {counts : List (Int × Nat)} {m : Nat} {q : Int} :
    q ∈ (counts.filter (fun kv => kv.2 = m)).map Prod.fst ↔ (q, m) ∈ counts := by
  constructor
  · intro h
    obtain ⟨kv, hkv, he⟩ := List.mem_map.mp h
    have := List.mem_filter.mp hkv
    have h2 : kv.2 = m := by simpa using this.2
    have : kv = (q, m) := by
      rcases kv with ⟨a, b⟩
      simp only at he h2
      rw [he, h2]
    exact this ▸ this.symm ▸ (List.mem_filter.mp hkv).1
  · intro h
    exact List.mem_map.mpr ⟨(q, m), List.mem_filter.mpr ⟨h, by simp⟩, rfl⟩

theorem LFU_get_victim_spec (s : LFU) (hne : s.access_counts ≠ [])
    (hnd : (s.access_counts.map Prod.fst).Nodup)
    (htimes : ∀ q, q ∈ s.access_counts.map Prod.fst →
      (dictGet s.access_times q).isSome = true) :
    ∃ v cv tv, s.get_victim = some v ∧
      dictGet s.access_counts v = some cv ∧
      dictGet s.access_times v = some tv ∧
      (∀ q cq, dictGet s.access_counts q = some cq → cv ≤ cq) ∧
      (∀ q tq, dictGet s.access_counts q = some cv →
        dictGet s.access_times q = some tq → tv ≤ tq) := by
  obtain ⟨m, hm, hle, ⟨⟨qk, qv⟩, hqmem, hqeq⟩⟩ := listMinVal_spec s.access_counts hne
  simp only at hqeq
  have hqmem2 : (qk, m) ∈ s.access_counts := hqeq ▸ hqmem
  have hmin_all : ∀ q cq, dictGet s.access_counts q = some cq → m ≤ cq :=
    fun q cq hq => hle (q, cq) (dictGet_mem hq)
  have hcands_ne :
      (s.access_counts.filter (fun kv => kv.2 = m)).map Prod.fst ≠ [] := by
    intro hempty
    have : qk ∈ (s.access_counts.filter (fun kv => kv.2 = m)).map Prod.fst :=
      mem_lfu_candidates.mpr hqmem2
    rw [hempty] at this
    simp at this
  unfold LFU.get_victim
  simp only [hm]
  by_cases hlen :
      ((s.access_counts.filter (fun kv => kv.2 = m)).map Prod.fst).length = 1
  · rw [if_pos hlen]
    obtain ⟨v, hv⟩ := List.length_eq_one.mp hlen
    have hvmem : (v, m) ∈ s.access_counts := by
      refine mem_lfu_candidates.mp ?_
      rw [hv]
      exact List.mem_cons_self _ _
    have hgv : dictGet s.access_counts v = some m := dictGet_of_mem_nodup hnd hvmem
    obtain ⟨tv, htv⟩ := Option.isSome_iff_exists.mp
      (htimes v (List.mem_map.mpr ⟨(v, m), hvmem, rfl⟩))
    refine ⟨v, m, tv, by rw [hv]; rfl, hgv, htv, hmin_all, ?_⟩
    intro q tq hqc htq
    have hq_cand : q ∈ (s.access_counts.filter (fun kv => kv.2 = m)).map Prod.fst :=
      mem_lfu_candidates.mpr (dictGet_mem hqc)
    rw [hv] at hq_cand
    have : q = v := by simpa using hq_cand
    subst this
    rw [htv] at htq
    injection htq with htq
    exact le_of_eq htq
  · rw [if_neg hlen]
    have hall : ∀ q ∈ (s.access_counts.filter (fun kv => kv.2 = m)).map Prod.fst,
        (dictGet s.access_times q).isSome = true := by
      intro q hq
      have : (q, m) ∈ s.access_counts := mem_lfu_candidates.mp hq
      exact htimes q (List.mem_map.mpr ⟨(q, m), this, rfl⟩)
    obtain ⟨r, tr, hr, htr, hrmem, hmin⟩ :=
      argminTime_spec s.access_times _ hcands_ne hall
    have hrm : (r, m) ∈ s.access_counts := mem_lfu_candidates.mp hrmem
    refine ⟨r, m, tr, hr, dictGet_of_mem_nodup hnd hrm, htr, hmin_all, ?_⟩
    intro q tq hqc htq
    exact hmin q tq (mem_lfu_candidates.mpr (dictGet_mem hqc)) htq

/-- C6: on a fault with the resident set at capacity, LFU evicts a resident
page whose tracked access count is minimal, breaking ties by the oldest
last-access time; the admitted page's count is set to 0 and then incremented
by the same access, so it ends the call at exactly 1. -/
theorem c6_lfu_victim_rule_and_admission (s : LFU) (p : Int) (t : Nat)
    (hout : p ∉ s.frames)
    (hcap : (s.frames.length : Int) ≥ s.num_frames)
    (hne : s.frames ≠ [])
    (hkeys : s.access_counts.map Prod.fst = s.frames)
    (htimes : s.access_times.map Prod.fst = s.frames)
    (hnd : s.frames.Nodup) :
    ∃ v cv tv s', s.access_page p t = some (true, some v, s') ∧
      v ∈ s.frames ∧
      dictGet s.access_counts v = some cv ∧
      dictGet s.access_times v = some tv ∧
      (∀ q cq, dictGet s.access_counts q = some cq → cv ≤ cq) ∧
      (∀ q tq, dictGet s.access_counts q = some cv →
        dictGet s.access_times q = some tq → tv ≤ tq) ∧
      dictGet s'.access_counts p = some 1 := by
  have hcne : s.access_counts ≠ [] := by
    intro h
    rw [← hkeys, h] at hne
    exact hne rfl
  have hcnd : (s.access_counts.map Prod.fst).Nodup := hkeys ▸ hnd
  have htall : ∀ q, q ∈ s.access_counts.map Prod.fst →
      (dictGet s.access_times q).isSome = true := by
    intro q hq
    rw [dictGet_isSome_iff_mem_keys, htimes]
    rw [hkeys] at hq
    exact hq
  obtain ⟨v, cv, tv, hv, hcv, htv, hminc, hmint⟩ :=
    LFU_get_victim_spec s hcne hcnd htall
  have hvmem : v ∈ s.frames := by
    rw [← hkeys]
    rw [← dictGet_isSome_iff_mem_keys]
    simp [hcv]
  obtain ⟨fs, hfs⟩ := Option.isSome_iff_exists.mp (pyRemove_isSome_of_mem hvmem)
  have hdelc : pyDictDel s.access_counts v = some (dictDel s.access_counts v) := by
    unfold pyDictDel
    rw [if_pos (by simp [hcv])]
  have hdelt : pyDictDel s.access_times v = some (dictDel s.access_times v) := by
    unfold pyDictDel
    rw [if_pos (by simp [htv])]
  have hincr : pyDictIncr (dictSet (dictDel s.access_counts v) p 0) p =
      some (dictSet (dictSet (dictDel s.access_counts v) p 0) p 1) := by
    simp [pyDictIncr, dictGet_dictSet_self]
  refine ⟨v, cv, tv,
    { s with frames := fs ++ [p],
             access_counts := dictSet (dictSet (dictDel s.access_counts v) p 0) p 1,
             access_times := dictSet (dictDel s.access_times v) p t },
    ?_, hvmem, hcv, htv, hminc, hmint, dictGet_dictSet_self _ _ _⟩
  simp only [LFU.access_page, if_neg hout, if_pos hcap, hv, hfs, hdelc, hdelt,
    hincr]

/-- C6 witness: a concrete LFU state at capacity (pages 7 and 8 resident,
counts 2 and 1, times 5 and 3) faulting on page 9. -/
theorem c6_lfu_victim_rule_and_admission_witness :
    ∃ v cv tv s',
      LFU.access_page
          { num_frames := 2, frames := [7, 8], access_counts := [(7, 2), (8, 1)],
            access_times := [(7, 5), (8, 3)] } 9 10 = some (true, some v, s') ∧
        v ∈ [(7 : Int), 8] ∧
        dictGet [((7 : Int), (2 : Nat)), (8, 1)] v = some cv ∧
        dictGet [((7 : Int), (5 : Nat)), (8, 3)] v = some tv ∧
        (∀ q cq, dictGet [((7 : Int), (2 : Nat)), (8, 1)] q = some cq → cv ≤ cq) ∧
        (∀ q tq, dictGet [((7 : Int), (2 : Nat)), (8, 1)] q = some cv →
          dictGet [((7 : Int), (5 : Nat)), (8, 3)] q = some tq → tv ≤ tq) ∧
        dictGet s'.access_counts 9 = some 1 :=
  c6_lfu_victim_rule_and_admission
    { num_frames := 2, frames := [7, 8], access_counts := [(7, 2), (8, 1)],
      access_times := [(7, 5), (8, 3)] } 9 10 (by decide) (by decide)
    (by decide) (by decide) (by decide) (by decide)

/-! ## C9 : non-faulting translations leave the policy untouched -/

/-- C9: a call of `translate_address` that reports no page fault leaves the
replacement policy's state exactly as it was — `access_page` is reached only
through `_handle_page_fault`. -/
theorem c9_no_fault_leaves_policy_unchanged (s : Simulator) (va : Int)
    (w : Bool) (pa : Int) (hit : Bool) (s' : Simulator)
    (h : translate s va w = some ((pa, false, hit), s')) :
    s'.alg = s.alg :=
  (translate_shape h).2.2 rfl

/-- C9 witness: the second access to page 0 on `sim4` is fault-free and the
FIFO state is unchanged. -/
theorem c9_no_fault_leaves_policy_unchanged_witness :
    ((translate sim4a 0 false).get (by decide)).2.alg = sim4a.alg := by
  refine c9_no_fault_leaves_policy_unchanged sim4a 0 false
    (((translate sim4a 0 false).get (by decide)).1.1)
    (((translate sim4a 0 false).get (by decide)).1.2.2)
    (((translate sim4a 0 false).get (by decide)).2) ?_
  decide

/-! ## Page-table operation lemmas (for the cache-consistency invariant) -/

theorem mem_dictDel_subset {α : Type} {l : List (Int × α)} {k : Int}
    {x : Int × α} (h : x ∈ dictDel l k) : x ∈ l := by
  induction l with
  | nil => simp [dictDel] at h
  | cons hd t ih =>
    rcases hd with ⟨k0, v0⟩
    by_cases hk : k0 = k
    · subst hk
      simp only [dictDel, if_pos rfl] at h
      exact List.mem_cons_of_mem _ h
    · simp only [dictDel, if_neg hk, List.mem_cons] at h ⊢
      rcases h with h | h
      · exact Or.inl h
      · exact Or.inr (ih h)

theorem not_mem_fst_dictDel {α : Type} {l : List (Int × α)} {k : Int} {v : α}
    (nd : (l.map Prod.fst).Nodup) (h : (k, v) ∈ dictDel l k) : False := by
  exact not_mem_keys_dictDel_self nd (List.mem_map.mpr ⟨(k, v), h, rfl⟩)

theorem toNat_inj_of_nonneg {p q : Int} (hp : 0 ≤ p) (hq : 0 ≤ q)
    (h : p.toNat = q.toNat) : p = q := by
  rw [← Int.toNat_of_nonneg hp, ← Int.toNat_of_nonneg hq, h]

theorem pyIdx_nonneg {α : Type} (l : List α) (i : Int) (h : 0 ≤ i) :
    pyIdx l i = l[i.toNat]? := by
  simp [pyIdx, h, List.get?_eq_getElem?]

theorem pySetIdx_nonneg_spec {α : Type} {l l' : List α} {i : Int} {a : α}
    (hp : 0 ≤ i) (h : pySetIdx l i a = some l') :
    i.toNat < l.length ∧ l' = l.set i.toNat a := by
  unfold pySetIdx at h
  rw [if_pos hp] at h
  by_cases hlt : i.toNat < l.length
  · rw [if_pos hlt] at h
    injection h with h
    exact ⟨hlt, h.symm⟩
  · rw [if_neg hlt] at h
    exact Option.noConfusion h

theorem set_frame_spec {pt : PageTable} {p f : Int} {pt' : PageTable}
    (hp : 0 ≤ p) (h : pt.set_frame p f = some pt') :
    pt'.num_pages = pt.num_pages ∧ pt'.entries.length = pt.entries.length ∧
      (∃ e, pt.entries[p.toNat]? = some e ∧
        pt'.entries[p.toNat]? =
          some { e with valid := true, frame_number := some f }) ∧
      ∀ j : Nat, j ≠ p.toNat → pt'.entries[j]? = pt.entries[j]? := by
  unfold PageTable.set_frame at h
  rw [pyIdx_nonneg _ _ hp] at h
  cases hg : pt.entries[p.toNat]? with
  | none =>
    simp only [hg] at h
    exact Option.noConfusion h
  | some e =>
    simp only [hg] at h
    cases hset : pySetIdx pt.entries p
        { e with valid := true, frame_number := some f } with
    | none =>
      simp only [hset, Option.map_none'] at h
      exact Option.noConfusion h
    | some es =>
      simp only [hset, Option.map_some', Option.some.injEq] at h
      subst h
      obtain ⟨hlt, rfl⟩ := pySetIdx_nonneg_spec hp hset
      refine ⟨rfl, by simp, ⟨e, rfl, ?_⟩, ?_⟩
      · simp [List.getElem?_set_self hlt]
      · intro j hj
        exact List.getElem?_set_ne (fun he => hj he.symm)

theorem invalidate_spec {pt : PageTable} {p : Int} {pt' : PageTable}
    (hp : 0 ≤ p) (h : pt.invalidate p = some pt') :
    pt'.num_pages = pt.num_pages ∧ pt'.entries.length = pt.entries.length ∧
      (∃ e, pt.entries[p.toNat]? = some e ∧
        pt'.entries[p.toNat]? =
          some { e with valid := false, frame_number := none }) ∧
      ∀ j : Nat, j ≠ p.toNat → pt'.entries[j]? = pt.entries[j]? := by
  unfold PageTable.invalidate at h
  rw [pyIdx_nonneg _ _ hp] at h
  cases hg : pt.entries[p.toNat]? with
  | none =>
    simp only [hg] at h
    exact Option.noConfusion h
  | some e =>
    simp only [hg] at h
    cases hset : pySetIdx pt.entries p
        { e with valid := false, frame_number := none } with
    | none =>
      simp only [hset, Option.map_none'] at h
      exact Option.noConfusion h
    | some es =>
      simp only [hset, Option.map_some', Option.some.injEq] at h
      subst h
      obtain ⟨hlt, rfl⟩ := pySetIdx_nonneg_spec hp hset
      refine ⟨rfl, by simp, ⟨e, rfl, ?_⟩, ?_⟩
      · simp [List.getElem?_set_self hlt]
      · intro j hj
        exact List.getElem?_set_ne (fun he => hj he.symm)

theorem update_access_spec {pt : PageTable} {p : Int} {time : Nat} {w : Bool}
    {pt' : PageTable} (hp : 0 ≤ p) (h : pt.update_access p time w = some pt') :
    pt'.num_pages = pt.num_pages ∧ pt'.entries.length = pt.entries.length ∧
      (∃ e e', pt.entries[p.toNat]? = some e ∧ pt'.entries[p.toNat]? = some e' ∧
        e'.valid = e.valid ∧ e'.frame_number = e.frame_number) ∧
      ∀ j : Nat, j ≠ p.toNat → pt'.entries[j]? = pt.entries[j]? := by
  unfold PageTable.update_access at h
  rw [pyIdx_nonneg _ _ hp] at h
  cases hg : pt.entries[p.toNat]? with
  | none =>
    simp only [hg] at h
    exact Option.noConfusion h
  | some e =>
    simp only [hg] at h
    cases hset : pySetIdx pt.entries p
        { e with referenced := true, last_access_time := time,
                 access_count := e.access_count + 1,
                 modified := if w then true else e.modified } with
    | none =>
      simp only [hset, Option.map_none'] at h
      exact Option.noConfusion h
    | some es =>
      simp only [hset, Option.map_some', Option.some.injEq] at h
      subst h
      obtain ⟨hlt, rfl⟩ := pySetIdx_nonneg_spec hp hset
      refine ⟨rfl, by simp,
        ⟨e, { e with referenced := true, last_access_time := time,
                     access_count := e.access_count + 1,
                     modified := if w then true else e.modified },
          rfl, by simp [List.getElem?_set_self hlt], rfl, rfl⟩, ?_⟩
      intro j hj
      exact List.getElem?_set_ne (fun he => hj he.symm)

theorem is_valid_nonneg {pt : PageTable} {p : Int} (hp : 0 ≤ p) :
    pt.is_valid p = (pt.entries[p.toNat]?).map PageTableEntry.valid := by
  unfold PageTable.is_valid
  rw [pyIdx_nonneg _ _ hp]

/-! ## The cache-consistency invariant (C1/C3) -/

/-- Invariant of every simulator state reachable through in-range translated
references: the TLB is a sub-map of `page_to_frame`, which in turn agrees
exactly with the valid bits and frame numbers of the page table. -/
structure SimInv (s : Simulator) : Prop where
  entries_len : s.page_table.entries.length = s.num_pages.toNat
  tlb_nodup : (s.tlb.cache.map Prod.fst).Nodup
  p2f_nodup : (s.page_to_frame.map Prod.fst).Nodup
  tlb_sub : ∀ p f, (p, f) ∈ s.tlb.cache → dictGet s.page_to_frame p = some f
  p2f_range : ∀ p f, dictGet s.page_to_frame p = some f →
    0 ≤ p ∧ p < s.num_pages
  p2f_valid : ∀ p f, dictGet s.page_to_frame p = some f →
    ∃ e, s.page_table.entries[p.toNat]? = some e ∧ e.valid = true ∧
      e.frame_number = some f
  valid_p2f : ∀ p, 0 ≤ p → p < s.num_pages →
    ∀ e, s.page_table.entries[p.toNat]? = some e → e.valid = true →
    (dictGet s.page_to_frame p).isSome = true

theorem mkSimulator_inv {np nf ps ts : Int} {name : AlgName}
    {rs : Option (List Int)} {s : Simulator}
    (h : mkSimulator np nf ps ts name rs = some s) : SimInv s := by
  obtain ⟨alg, halg, hs⟩ := Option.map_eq_some'.mp h
  subst hs
  refine ⟨by simp [PageTable.init], by simp [TLB.init], by simp, ?_, ?_, ?_, ?_⟩
  · intro p f hmem
    simp [TLB.init] at hmem
  · intro p f hget
    simp [dictGet] at hget
  · intro p f hget
    simp [dictGet] at hget
  · intro p _ _ e he hval
    have hrep : e ∈ List.replicate np.toNat PageTableEntry.init := by
      have hmem := List.getElem?_mem he
      simpa [PageTable.init] using hmem
    have he2 : e = PageTableEntry.init := List.eq_of_mem_replicate hrep
    rw [he2] at hval
    exact absurd hval (by simp [PageTableEntry.init])

theorem nodup_keys_append_singleton {α : Type} {l : List (Int × α)} {k : Int}
    {v : α} (nd : (l.map Prod.fst).Nodup) (hk : k ∉ l.map Prod.fst) :
    ((l ++ [(k, v)]).map Prod.fst).Nodup := by
  rw [List.map_append]
  simp only [List.nodup_append, List.map_cons, List.map_nil]
  refine ⟨nd, List.nodup_singleton _, ?_⟩
  intro a ha
  simp only [List.mem_singleton]
  intro he
  exact hk (he ▸ ha)

theorem exists_mem_of_mem_keys {α : Type} {l : List (Int × α)} {k : Int}
    (h : k ∈ l.map Prod.fst) : ∃ v, (k, v) ∈ l := by
  obtain ⟨x, hx, he⟩ := List.mem_map.mp h
  exact ⟨x.2, by rcases x with ⟨a, b⟩; simp only at he; rw [he] at hx; exact hx⟩

theorem TLB_insert_spec {t : TLB} {p f : Int} {t' : TLB}
    (habs : dictGet t.cache p = none) (h : t.insert p f = some t') :
    t'.size = t.size ∧
      ∃ rest, t'.cache = rest ++ [(p, f)] ∧ (∀ x, x ∈ rest → x ∈ t.cache) ∧
        ((t.cache.map Prod.fst).Nodup → (rest.map Prod.fst).Nodup) := by
  unfold TLB.insert at h
  simp only [habs] at h
  by_cases hlen : (t.cache.length : Int) ≥ t.size
  · rw [if_pos hlen] at h
    cases hcache : t.cache with
    | nil =>
      rw [hcache] at h
      exact Option.noConfusion h
    | cons x rest0 =>
      rw [hcache] at h
      injection h with h
      subst h
      refine ⟨rfl, rest0, rfl, ?_, ?_⟩
      · intro y hy
        exact List.mem_cons_of_mem _ hy
      · intro nd
        simp only [List.map_cons, List.nodup_cons] at nd
        exact nd.2
  · rw [if_neg hlen] at h
    injection h with h
    subst h
    exact ⟨rfl, t.cache, rfl, fun x hx => hx, fun nd => nd⟩

theorem handlePageFault_post {s : Simulator} {p f : Int} {s2 : Simulator}
    (inv : SimInv s) (hp0 : 0 ≤ p) (hpn : p < s.num_pages)
    (hnr : dictGet s.page_to_frame p = none)
    (h : handlePageFault s p = some (f, s2)) :
    s2.num_pages = s.num_pages ∧ s2.page_size = s.page_size ∧
      s2.current_time = s.current_time ∧ s2.tlb.size = s.tlb.size ∧
      SimInv s2 ∧ dictGet s2.page_to_frame p = some f ∧
      (∀ x, x ∈ s2.tlb.cache → x ∈ s.tlb.cache) := by
  unfold handlePageFault at h
  cases hap : s.alg.access_page p s.current_time with
  | none =>
    simp only [hap] at h
    exact Option.noConfusion h
  | some r =>
    obtain ⟨fa, victim?, alg1⟩ := r
    simp only [hap] at h
    cases victim? with
    | some v =>
      cases hg : dictGet s.page_to_frame v with
      | none =>
        simp only [hg] at h
        exact Option.noConfusion h
      | some fv =>
        simp only [hg] at h
        cases hi : s.page_table.invalidate v with
        | none =>
          simp only [hi] at h
          exact Option.noConfusion h
        | some pt1 =>
          simp only [hi] at h
          cases hsf : pt1.set_frame p fv with
          | none =>
            simp only [hsf] at h
            exact Option.noConfusion h
          | some pt2 =>
            simp only [hsf, Option.some.injEq, Prod.mk.injEq] at h
            obtain ⟨hf, hs2⟩ := h
            subst hs2
            subst hf
            obtain ⟨hv0, hvn⟩ := inv.p2f_range v fv hg
            have hpv : p ≠ v := by
              intro he
              rw [he, hg] at hnr
              exact Option.noConfusion hnr
            have hpvN : p.toNat ≠ v.toNat :=
              fun he => hpv (toNat_inj_of_nonneg hp0 hv0 he)
            obtain ⟨hinp1, hilen1, ⟨ev, hev, hev'⟩, hiother⟩ :=
              invalidate_spec hv0 hi
            obtain ⟨hsnp2, hslen2, ⟨ep, hep, hep'⟩, hsother⟩ :=
              set_frame_spec hp0 hsf
            refine ⟨rfl, rfl, rfl, rfl, ?_, ?_, ?_⟩
            · refine ⟨?_, ?_, ?_, ?_, ?_, ?_, ?_⟩
              · show pt2.entries.length = s.num_pages.toNat
                rw [hslen2, hilen1]
                exact inv.entries_len
              · exact keys_dictDel_nodup v inv.tlb_nodup
              · exact keys_dictSet_nodup p fv
                  (keys_dictDel_nodup v inv.p2f_nodup)
              · intro q g hmem
                have hmem0 : (q, g) ∈ s.tlb.cache := mem_dictDel_subset hmem
                have hqv : q ≠ v := by
                  intro he
                  subst he
                  exact not_mem_fst_dictDel inv.tlb_nodup hmem
                have hold : dictGet s.page_to_frame q = some g :=
                  inv.tlb_sub q g hmem0
                have hqp : q ≠ p := by
                  intro he
                  rw [he, hnr] at hold
                  exact Option.noConfusion hold
                rw [dictGet_dictSet_ne _ _ _ _ hqp,
                  dictGet_dictDel_ne _ _ _ hqv]
                exact hold
              · intro q g hget
                by_cases hqp : q = p
                · subst hqp
                  exact ⟨hp0, hpn⟩
                · rw [dictGet_dictSet_ne _ _ _ _ hqp] at hget
                  by_cases hqv : q = v
                  · subst hqv
                    rw [dictGet_dictDel_self inv.p2f_nodup] at hget
                    exact Option.noConfusion hget
                  · rw [dictGet_dictDel_ne _ _ _ hqv] at hget
                    exact inv.p2f_range q g hget
              · intro q g hget
                by_cases hqp : q = p
                · subst hqp
                  rw [dictGet_dictSet_self] at hget
                  injection hget with hget
                  subst hget
                  exact ⟨_, hep', rfl, rfl⟩
                · rw [dictGet_dictSet_ne _ _ _ _ hqp] at hget
                  by_cases hqv : q = v
                  · subst hqv
                    rw [dictGet_dictDel_self inv.p2f_nodup] at hget
                    exact Option.noConfusion hget
                  · rw [dictGet_dictDel_ne _ _ _ hqv] at hget
                    obtain ⟨e, he, hev2, hef⟩ := inv.p2f_valid q g hget
                    obtain ⟨hq0, hqn⟩ := inv.p2f_range q g hget
                    have hqpN : q.toNat ≠ p.toNat :=
                      fun he2 => hqp (toNat_inj_of_nonneg hq0 hp0 he2)
                    have hqvN : q.toNat ≠ v.toNat :=
                      fun he2 => hqv (toNat_inj_of_nonneg hq0 hv0 he2)
                    refine ⟨e, ?_, hev2, hef⟩
                    rw [hsother q.toNat hqpN, hiother q.toNat hqvN]
                    exact he
              · intro q hq0 hqn e he hval
                by_cases hqpN : q.toNat = p.toNat
                · have : q = p := toNat_inj_of_nonneg hq0 hp0 hqpN
                  subst this
                  rw [dictGet_dictSet_self]
                  rfl
                · rw [hsother q.toNat hqpN] at he
                  by_cases hqvN : q.toNat = v.toNat
                  · have : q = v := toNat_inj_of_nonneg hq0 hv0 hqvN
                    subst this
                    rw [hqvN] at he
                    rw [hev'] at he
                    injection he with he
                    rw [← he] at hval
                    exact absurd hval (by simp)
                  · rw [hiother q.toNat hqvN] at he
                    have hq := inv.valid_p2f q hq0 (by exact hqn) e he hval
                    obtain ⟨g, hget⟩ := Option.isSome_iff_exists.mp hq
                    have hqp : q ≠ p :=
                      fun he2 => hqpN (by rw [he2])
                    have hqv : q ≠ v :=
                      fun he2 => hqvN (by rw [he2])
                    rw [dictGet_dictSet_ne _ _ _ _ hqp,
                      dictGet_dictDel_ne _ _ _ hqv, hget]
                    rfl
            · exact dictGet_dictSet_self _ _ _
            · intro x hx
              exact mem_dictDel_subset hx
    | none =>
      cases hff : s.free_frames with
      | nil =>
        simp only [hff] at h
        exact Option.noConfusion h
      | cons f0 rest =>
        simp only [hff] at h
        cases hsf : s.page_table.set_frame p f0 with
        | none =>
          simp only [hsf] at h
          exact Option.noConfusion h
        | some pt2 =>
          simp only [hsf, Option.some.injEq, Prod.mk.injEq] at h
          obtain ⟨hf, hs2⟩ := h
          subst hs2
          subst hf
          obtain ⟨hsnp2, hslen2, ⟨ep, hep, hep'⟩, hsother⟩ :=
            set_frame_spec hp0 hsf
          refine ⟨rfl, rfl, rfl, rfl, ?_, ?_, ?_⟩
          · refine ⟨?_, inv.tlb_nodup, keys_dictSet_nodup p f0 inv.p2f_nodup,
              ?_, ?_, ?_, ?_⟩
            · show pt2.entries.length = s.num_pages.toNat
              rw [hslen2]
              exact inv.entries_len
            · intro q g hmem
              have hold : dictGet s.page_to_frame q = some g :=
                inv.tlb_sub q g hmem
              have hqp : q ≠ p := by
                intro he
                rw [he, hnr] at hold
                exact Option.noConfusion hold
              rw [dictGet_dictSet_ne _ _ _ _ hqp]
              exact hold
            · intro q g hget
              by_cases hqp : q = p
              · subst hqp
                exact ⟨hp0, hpn⟩
              · rw [dictGet_dictSet_ne _ _ _ _ hqp] at hget
                exact inv.p2f_range q g hget
            · intro q g hget
              by_cases hqp : q = p
              · subst hqp
                rw [dictGet_dictSet_self] at hget
                injection hget with hget
                subst hget
                exact ⟨_, hep', rfl, rfl⟩
              · rw [dictGet_dictSet_ne _ _ _ _ hqp] at hget
                obtain ⟨e, he, hev2, hef⟩ := inv.p2f_valid q g hget
                obtain ⟨hq0, hqn⟩ := inv.p2f_range q g hget
                have hqpN : q.toNat ≠ p.toNat :=
                  fun he2 => hqp (toNat_inj_of_nonneg hq0 hp0 he2)
                refine ⟨e, ?_, hev2, hef⟩
                rw [hsother q.toNat hqpN]
                exact he
            · intro q hq0 hqn e he hval
              by_cases hqpN : q.toNat = p.toNat
              · have : q = p := toNat_inj_of_nonneg hq0 hp0 hqpN
                subst this
                rw [dictGet_dictSet_self]
                rfl
              · rw [hsother q.toNat hqpN] at he
                have hq := inv.valid_p2f q hq0 (by exact hqn) e he hval
                obtain ⟨g, hget⟩ := Option.isSome_iff_exists.mp hq
                have hqp : q ≠ p := fun he2 => hqpN (by rw [he2])
                rw [dictGet_dictSet_ne _ _ _ _ hqp, hget]
                rfl
          · exact dictGet_dictSet_self _ _ _
          · intro x hx
            exact hx

theorem translate_post {s : Simulator} {va : Int} {w : Bool} {pa : Int}
    {fault hit : Bool} {s' : Simulator} (inv : SimInv s)
    (hp0 : 0 ≤ Int.fdiv va s.page_size)
    (hpn : Int.fdiv va s.page_size < s.num_pages)
    (h : translate s va w = some ((pa, fault, hit), s')) :
    SimInv s' ∧
      ((fault = true) ↔
        dictGet s.page_to_frame (Int.fdiv va s.page_size) = none) ∧
      ∃ f : Int, pa = f * s.page_size + Int.fmod va s.page_size ∧
        (Int.fdiv va s.page_size, f) ∈ s'.tlb.cache ∧
        ∃ e, s'.page_table.entries[(Int.fdiv va s.page_size).toNat]? = some e ∧
          e.valid = true ∧ e.frame_number = some f := by
  by_cases hps : s.page_size = 0
  · unfold translate at h
    simp [pyFdiv, hps] at h
  · unfold translate at h
    simp only [pyFdiv, pyFmod, if_neg hps, TLB.lookup] at h
    cases hc : dictGet s.tlb.cache (Int.fdiv va s.page_size) with
    | some f0 =>
      simp only [hc] at h
      have hmemc : (Int.fdiv va s.page_size, f0) ∈ s.tlb.cache := dictGet_mem hc
      have hres : dictGet s.page_to_frame (Int.fdiv va s.page_size) = some f0 :=
        inv.tlb_sub _ _ hmemc
      obtain ⟨e0, he0, he0v, he0f⟩ := inv.p2f_valid _ _ hres
      cases hu : s.page_table.update_access (Int.fdiv va s.page_size)
          (s.current_time + 1) w with
      | none =>
        simp only [hu] at h
        exact Option.noConfusion h
      | some pt =>
        simp only [hu, Option.some.injEq, Prod.mk.injEq] at h
        obtain ⟨⟨hpa, hfault, hhit⟩, hs⟩ := h
        subst hs
        obtain ⟨hunp, hulen, ⟨e, e', he, he', hev, hef⟩, huother⟩ :=
          update_access_spec hp0 hu
        rw [he0] at he
        injection he with he
        subst he
        refine ⟨?_, ?_, f0, hpa.symm, ?_, e', he', ?_, ?_⟩
        · refine ⟨?_, ?_, inv.p2f_nodup, ?_, inv.p2f_range, ?_, ?_⟩
          · show pt.entries.length = s.num_pages.toNat
            rw [hulen]
            exact inv.entries_len
          · show ((dictDel s.tlb.cache (Int.fdiv va s.page_size) ++
              [(Int.fdiv va s.page_size, f0)]).map Prod.fst).Nodup
            exact nodup_keys_append_singleton
              (keys_dictDel_nodup _ inv.tlb_nodup)
              (not_mem_keys_dictDel_self inv.tlb_nodup)
          · intro q g hmem
            rcases List.mem_append.mp hmem with hmem | hmem
            · exact inv.tlb_sub q g (mem_dictDel_subset hmem)
            · simp only [List.mem_singleton, Prod.mk.injEq] at hmem
              obtain ⟨rfl, rfl⟩ := hmem
              exact hres
          · intro q g hget
            obtain ⟨eq1, heq1, heq1v, heq1f⟩ := inv.p2f_valid q g hget
            obtain ⟨hq0, hqn⟩ := inv.p2f_range q g hget
            by_cases hqN : q.toNat = (Int.fdiv va s.page_size).toNat
            · have hq : q = Int.fdiv va s.page_size :=
                toNat_inj_of_nonneg hq0 hp0 hqN
              subst hq
              rw [heq1] at he0
              injection he0 with he0
              subst he0
              refine ⟨e', by rw [← hqN] at he'; exact he', ?_, ?_⟩
              · rw [hev, heq1v]
              · rw [hef, heq1f]
            · exact ⟨eq1, by rw [huother q.toNat hqN]; exact heq1, heq1v, heq1f⟩
          · intro q hq0 hqn e2 he2 hval2
            by_cases hqN : q.toNat = (Int.fdiv va s.page_size).toNat
            · have hq : q = Int.fdiv va s.page_size :=
                toNat_inj_of_nonneg hq0 hp0 hqN
              subst hq
              rw [hres]
              rfl
            · rw [huother q.toNat hqN] at he2
              exact inv.valid_p2f q hq0 hqn e2 he2 hval2
        · subst hfault
          simp [hres]
        · exact List.mem_append_right _ (List.mem_singleton.mpr rfl)
        · rw [hev, he0v]
        · rw [hef, he0f]
    | none =>
      simp only [hc] at h
      cases hv : s.page_table.is_valid (Int.fdiv va s.page_size) with
      | none =>
        simp only [hv] at h
        exact Option.noConfusion h
      | some valid =>
        simp only [hv] at h
        rw [is_valid_nonneg hp0] at hv
        cases he0 : s.page_table.entries[(Int.fdiv va s.page_size).toNat]? with
        | none =>
          rw [he0] at hv
          exact Option.noConfusion hv
        | some e0 =>
          rw [he0] at hv
          injection hv with hv
          by_cases hval : valid = true
          · -- resident in the page table, TLB miss
            rw [if_pos hval] at h
            subst hval
            have hsome := inv.valid_p2f _ hp0 hpn e0 he0 hv
            obtain ⟨f1, hres⟩ := Option.isSome_iff_exists.mp hsome
            obtain ⟨e1, he1, he1v, he1f⟩ := inv.p2f_valid _ _ hres
            rw [he0] at he1
            injection he1 with he1
            subst he1
            have hgf : s.page_table.get_frame_number
                (Int.fdiv va s.page_size) = some (some f1) := by
              unfold PageTable.get_frame_number
              simp only [PageTable.is_valid, pyIdx_nonneg _ _ hp0, he0,
                Option.map_some', hv, he1f]
            simp only [hgf] at h
            cases hins : TLB.insert
                ⟨s.tlb.size, s.tlb.cache, s.tlb.hits, s.tlb.misses + 1⟩
                (Int.fdiv va s.page_size) f1 with
            | none =>
              simp only [hins] at h
              exact Option.noConfusion h
            | some tlb2 =>
              simp only [hins] at h
              cases hu : s.page_table.update_access (Int.fdiv va s.page_size)
                  (s.current_time + 1) w with
              | none =>
                simp only [hu] at h
                exact Option.noConfusion h
              | some pt =>
                simp only [hu, Option.some.injEq, Prod.mk.injEq] at h
                obtain ⟨⟨hpa, hfault, hhit⟩, hs⟩ := h
                subst hs
                obtain ⟨hunp, hulen, ⟨e, e', he, he', hev, hef⟩, huother⟩ :=
                  update_access_spec hp0 hu
                rw [he0] at he
                injection he with he
                subst he
                obtain ⟨hsize2, rest, hcache2, hrest_sub, hrest_nd⟩ :=
                  TLB_insert_spec (t := ⟨s.tlb.size, s.tlb.cache, s.tlb.hits,
                    s.tlb.misses + 1⟩) hc hins
                refine ⟨?_, ?_, f1, hpa.symm, ?_, e', he', ?_, ?_⟩
                · refine ⟨?_, ?_, inv.p2f_nodup, ?_, inv.p2f_range, ?_, ?_⟩
                  · show pt.entries.length = s.num_pages.toNat
                    rw [hulen]
                    exact inv.entries_len
                  · show (tlb2.cache.map Prod.fst).Nodup
                    rw [hcache2]
                    refine nodup_keys_append_singleton
                      (hrest_nd inv.tlb_nodup) ?_
                    intro hmem
                    obtain ⟨g, hg⟩ := exists_mem_of_mem_keys hmem
                    have : (Int.fdiv va s.page_size, g) ∈ s.tlb.cache :=
                      hrest_sub _ hg
                    rw [dictGet_eq_none_iff] at hc
                    exact hc (List.mem_map.mpr ⟨_, this, rfl⟩)
                  · intro q g hmem
                    rw [hcache2] at hmem
                    rcases List.mem_append.mp hmem with hmem | hmem
                    · exact inv.tlb_sub q g (hrest_sub _ hmem)
                    · simp only [List.mem_singleton, Prod.mk.injEq] at hmem
                      obtain ⟨rfl, rfl⟩ := hmem
                      exact hres
                  · intro q g hget
                    obtain ⟨eq1, heq1, heq1v, heq1f⟩ := inv.p2f_valid q g hget
                    obtain ⟨hq0, hqn⟩ := inv.p2f_range q g hget
                    by_cases hqN : q.toNat = (Int.fdiv va s.page_size).toNat
                    · have hq : q = Int.fdiv va s.page_size :=
                        toNat_inj_of_nonneg hq0 hp0 hqN
                      subst hq
                      rw [heq1] at he0
                      injection he0 with he0
                      subst he0
                      refine ⟨e', by rw [← hqN] at he'; exact he', ?_, ?_⟩
                      · rw [hev, heq1v]
                      · rw [hef, heq1f]
                    · exact ⟨eq1, by rw [huother q.toNat hqN]; exact heq1,
                        heq1v, heq1f⟩
                  · intro q hq0 hqn e2 he2 hval2
                    by_cases hqN : q.toNat = (Int.fdiv va s.page_size).toNat
                    · have hq : q = Int.fdiv va s.page_size :=
                        toNat_inj_of_nonneg hq0 hp0 hqN
                      subst hq
                      rw [hres]
                      rfl
                    · rw [huother q.toNat hqN] at he2
                      exact inv.valid_p2f q hq0 hqn e2 he2 hval2
                · subst hfault
                  simp [hres]
                · rw [hcache2]
                  exact List.mem_append_right _ (List.mem_singleton.mpr rfl)
                · rw [hev, he1v]
                · rw [hef, he1f]
          · -- page fault
            rw [if_neg hval] at h
            have hval' : valid = false := by
              cases valid
              · rfl
              · exact absurd rfl hval
            subst hval'
            have hnr : dictGet s.page_to_frame (Int.fdiv va s.page_size) =
                none := by
              cases hget : dictGet s.page_to_frame (Int.fdiv va s.page_size) with
              | none => rfl
              | some g =>
                obtain ⟨e1, he1, he1v, _⟩ := inv.p2f_valid _ _ hget
                rw [he0] at he1
                injection he1 with he1
                rw [← he1] at he1v
                exact absurd he1v (by rw [hv]; simp)
            split at h
            · exact Option.noConfusion h
            · rename_i f0 s2 hpf
              have inv1 : SimInv { s with
                  memory_accesses := s.memory_accesses + 1,
                  current_time := s.current_time + 1,
                  tlb := ⟨s.tlb.size, s.tlb.cache, s.tlb.hits,
                    s.tlb.misses + 1⟩,
                  page_faults := s.page_faults + 1 } :=
                ⟨inv.entries_len, inv.tlb_nodup, inv.p2f_nodup, inv.tlb_sub,
                  inv.p2f_range, inv.p2f_valid, inv.valid_p2f⟩
              obtain ⟨hnp2, hps2, hct2, hts2, inv2, hres2, hsub2⟩ :=
                handlePageFault_post inv1 hp0 hpn hnr hpf
              have habs2 : dictGet s2.tlb.cache (Int.fdiv va s.page_size) =
                  none := by
                rw [dictGet_eq_none_iff]
                intro hmem
                obtain ⟨g, hg⟩ := exists_mem_of_mem_keys hmem
                have : (Int.fdiv va s.page_size, g) ∈ s.tlb.cache :=
                  hsub2 _ hg
                rw [dictGet_eq_none_iff] at hc
                exact hc (List.mem_map.mpr ⟨_, this, rfl⟩)
              cases hins : TLB.insert s2.tlb (Int.fdiv va s.page_size) f0 with
              | none =>
                simp only [hins] at h
                exact Option.noConfusion h
              | some tlb2 =>
                simp only [hins] at h
                cases hu : s2.page_table.update_access
                    (Int.fdiv va s.page_size) s2.current_time w with
                | none =>
                  simp only [hu] at h
                  exact Option.noConfusion h
                | some pt =>
                  simp only [hu, Option.some.injEq, Prod.mk.injEq] at h
                  obtain ⟨⟨hpa, hfault, hhit⟩, hs⟩ := h
                  subst hs
                  obtain ⟨hunp, hulen, ⟨e, e', he, he', hev, hef⟩, huother⟩ :=
                    update_access_spec hp0 hu
                  obtain ⟨e2, he2, he2v, he2f⟩ := inv2.p2f_valid _ _ hres2
                  rw [he2] at he
                  injection he with he
                  subst he
                  obtain ⟨hsize2, rest, hcache2, hrest_sub, hrest_nd⟩ :=
                    TLB_insert_spec habs2 hins
                  refine ⟨?_, ?_, f0, ?_, ?_, e', he', ?_, ?_⟩
                  · refine ⟨?_, ?_, inv2.p2f_nodup, ?_, ?_, ?_, ?_⟩
                    · show pt.entries.length = s2.num_pages.toNat
                      rw [hulen]
                      exact inv2.entries_len
                    · show (tlb2.cache.map Prod.fst).Nodup
                      rw [hcache2]
                      refine nodup_keys_append_singleton
                        (hrest_nd inv2.tlb_nodup) ?_
                      intro hmem
                      obtain ⟨g, hg⟩ := exists_mem_of_mem_keys hmem
                      have hmem2 : (Int.fdiv va s.page_size, g) ∈
                          s2.tlb.cache := hrest_sub _ hg
                      rw [dictGet_eq_none_iff] at habs2
                      exact habs2 (List.mem_map.mpr ⟨_, hmem2, rfl⟩)
                    · intro q g hmem
                      rw [hcache2] at hmem
                      rcases List.mem_append.mp hmem with hmem | hmem
                      · exact inv2.tlb_sub q g (hrest_sub _ hmem)
                      · simp only [List.mem_singleton, Prod.mk.injEq] at hmem
                        obtain ⟨rfl, rfl⟩ := hmem
                        exact hres2
                    · intro q g hget
                      exact inv2.p2f_range q g hget
                    · intro q g hget
                      obtain ⟨eq1, heq1, heq1v, heq1f⟩ :=
                        inv2.p2f_valid q g hget
                      obtain ⟨hq0, hqn⟩ := inv2.p2f_range q g hget
                      by_cases hqN : q.toNat = (Int.fdiv va s.page_size).toNat
                      · have hq : q = Int.fdiv va s.page_size :=
                          toNat_inj_of_nonneg hq0 hp0 hqN
                        subst hq
                        rw [heq1] at he2
                        injection he2 with he2
                        subst he2
                        refine ⟨e', by rw [← hqN] at he'; exact he', ?_, ?_⟩
                        · rw [hev, heq1v]
                        · rw [hef, heq1f]
                      · exact ⟨eq1, by rw [huother q.toNat hqN]; exact heq1,
                          heq1v, heq1f⟩
                    · intro q hq0 hqn e3 he3 hval3
                      by_cases hqN : q.toNat = (Int.fdiv va s.page_size).toNat
                      · have hq : q = Int.fdiv va s.page_size :=
                          toNat_inj_of_nonneg hq0 hp0 hqN
                        subst hq
                        rw [hres2]
                        rfl
                      · rw [huother q.toNat hqN] at he3
                        exact inv2.valid_p2f q hq0 hqn e3 he3 hval3
                  · subst hfault
                    simp [hnr]
                  · rw [← hpa, hps2]
                  · rw [hcache2]
                    exact List.mem_append_right _ (List.mem_singleton.mpr rfl)
                  · rw [hev, he2v]
                  · rw [hef, he2f]

/-- States reachable from `s0` through successful `translate_address` calls
whose referenced page number lies in `[0, num_pages)`. -/
inductive ReachesIn : Simulator → Simulator → Prop where
  | refl (s : Simulator) : ReachesIn s s
  | step {s0 s s' : Simulator} {va : Int} {w : Bool} {pa : Int}
      {fault hit : Bool} :
      ReachesIn s0 s → 0 ≤ Int.fdiv va s.page_size →
      Int.fdiv va s.page_size < s.num_pages →
      translate s va w = some ((pa, fault, hit), s') → ReachesIn s0 s'

theorem reachesIn_inv {s0 s : Simulator} (h0 : SimInv s0)
    (h : ReachesIn s0 s) : SimInv s := by
  induction h with
  | refl => exact h0
  | step hreach hlo hhi htr ih => exact (translate_post ih hlo hhi htr).1

/-- C1 (counterexample): after the in-range/negative call mix of `simNeg`
(pages 3, −1, 0 on a 1-frame simulator), a further `translate (-4)` — page
`-1` — succeeds via a stale TLB entry, yet `page_table.is_valid` reports the
page invalid: the claim's guarantee fails for that sequence of calls. -/
theorem c1_counterexample_stale_alias :
    (translate simNeg (-4) false).isSome = true ∧
      (translate simNeg (-4) false).map
        (fun r => r.2.page_table.is_valid (Int.fdiv (-4) simNeg.page_size)) =
        some (some false) := ⟨by decide, by decide⟩

/-- C1 (amended): on a constructed simulator driven only through translated
references whose page numbers are in `[0, num_pages)`, every successful
`translate_address` call leaves `is_valid page = true` and a TLB entry
`page ↦ physicalAddress div pageSize`. -/
theorem c1_caches_consistent_after_translate (np nf ps ts : Int)
    (name : AlgName) (rs : Option (List Int)) (s0 s : Simulator) (va : Int)
    (w : Bool) (pa : Int) (fault hit : Bool) (s' : Simulator)
    (h0 : mkSimulator np nf ps ts name rs = some s0)
    (hre : ReachesIn s0 s)
    (hlo : 0 ≤ Int.fdiv va s.page_size)
    (hhi : Int.fdiv va s.page_size < s.num_pages)
    (hps : 0 < s.page_size)
    (h : translate s va w = some ((pa, fault, hit), s')) :
    s'.page_table.is_valid (Int.fdiv va s.page_size) = some true ∧
      (Int.fdiv va s.page_size, Int.fdiv pa s.page_size) ∈ s'.tlb.cache := by
  have inv := reachesIn_inv (mkSimulator_inv h0) hre
  obtain ⟨inv', hiff, f, hpa, hmem, e, he, hev, hef⟩ :=
    translate_post inv hlo hhi h
  have hoff1 : 0 ≤ Int.fmod va s.page_size := Int.fmod_nonneg' va hps
  have hoff2 : Int.fmod va s.page_size < s.page_size :=
    Int.fmod_lt_of_pos va hps
  have hdiv : Int.fdiv pa s.page_size = f := by
    rw [hpa, Int.fdiv_eq_ediv _ (le_of_lt hps), Int.add_comm,
      Int.add_mul_ediv_right _ _ (ne_of_gt hps),
      Int.ediv_eq_zero_of_lt hoff1 hoff2, Int.zero_add]
  constructor
  · rw [is_valid_nonneg hlo, he]
    simp [hev]
  · rw [hdiv]
    exact hmem

/-- C1 witness: one in-range reference (address 0) on the freshly
constructed `sim4`. -/
theorem c1_caches_consistent_after_translate_witness :
    ((translate sim4 0 false).get (by decide)).2.page_table.is_valid
        (Int.fdiv 0 sim4.page_size) = some true ∧
      (Int.fdiv 0 sim4.page_size,
        Int.fdiv (((translate sim4 0 false).get (by decide)).1.1)
          sim4.page_size) ∈
        ((translate sim4 0 false).get (by decide)).2.tlb.cache := by
  refine c1_caches_consistent_after_translate 4 2 4 2 .FIFO none sim4 sim4 0
    false (((translate sim4 0 false).get (by decide)).1.1)
    (((translate sim4 0 false).get (by decide)).1.2.1)
    (((translate sim4 0 false).get (by decide)).1.2.2)
    (((translate sim4 0 false).get (by decide)).2)
    (by decide) (ReachesIn.refl sim4) (by decide) (by decide) (by decide)
    (by decide)

/-- C3 (counterexample): the 4th call of the `simNeg` scenario references
page `-1`, which is not mapped to any frame, yet `faultOccurred` is `false`
(a stale TLB alias entry answers the lookup). -/
theorem c3_counterexample_no_fault_nonresident :
    (translate simNeg (-4) false).map (fun r => r.1.2.1) = some false ∧
      dictGet simNeg.page_to_frame (Int.fdiv (-4) simNeg.page_size) = none :=
  ⟨by decide, by decide⟩

/-- C3 (amended): on a constructed simulator driven only through in-range
translated references, `faultOccurred` is true iff the referenced page was
not mapped to a frame immediately before the call. -/
theorem c3_fault_iff_not_resident (np nf ps ts : Int) (name : AlgName)
    (rs : Option (List Int)) (s0 s : Simulator) (va : Int) (w : Bool)
    (pa : Int) (fault hit : Bool) (s' : Simulator)
    (h0 : mkSimulator np nf ps ts name rs = some s0)
    (hre : ReachesIn s0 s)
    (hlo : 0 ≤ Int.fdiv va s.page_size)
    (hhi : Int.fdiv va s.page_size < s.num_pages)
    (h : translate s va w = some ((pa, fault, hit), s')) :
    fault = true ↔
      dictGet s.page_to_frame (Int.fdiv va s.page_size) = none :=
  (translate_post (reachesIn_inv (mkSimulator_inv h0) hre) hlo hhi h).2.1

/-- C3 witness: the first reference to page 0 on fresh `sim4` faults, and
page 0 is indeed not resident beforehand. -/
theorem c3_fault_iff_not_resident_witness :
    (((translate sim4 0 false).get (by decide)).1.2.1 = true ↔
      dictGet sim4.page_to_frame (Int.fdiv 0 sim4.page_size) = none) := by
  refine c3_fault_iff_not_resident 4 2 4 2 .FIFO none sim4 sim4 0 false
    (((translate sim4 0 false).get (by decide)).1.1)
    (((translate sim4 0 false).get (by decide)).1.2.1)
    (((translate sim4 0 false).get (by decide)).1.2.2)
    (((translate sim4 0 false).get (by decide)).2)
    (by decide) (ReachesIn.refl sim4) (by decide) (by decide) (by decide)

/-! ## C10 : termination bound of the Clock scan -/

theorem filterLen_mono {α : Type} (l : List α) (p q : α → Bool)
    (himp : ∀ x ∈ l, q x = true → p x = true) :
    (l.filter q).length ≤ (l.filter p).length := by
  induction l with
  | nil => simp
  | cons x t ih =>
    have himp' : ∀ y ∈ t, q y = true → p y = true :=
      fun y hy => himp y (List.mem_cons_of_mem _ hy)
    cases hq : q x with
    | true =>
      have hp := himp x (List.mem_cons_self _ _) hq
      simp only [List.filter_cons, hq, hp, if_true]
      exact Nat.succ_le_succ (ih himp')
    | false =>
      cases hp : p x with
      | true =>
        simp only [List.filter_cons, hq, hp]
        exact le_trans (ih himp') (by simp)
      | false =>
        simp only [List.filter_cons, hq, hp]
        exact ih himp'

theorem filterLen_strict {α : Type} (l : List α) (p q : α → Bool) (a : α)
    (ha : a ∈ l) (hpa : p a = true) (hqa : q a = false)
    (himp : ∀ x ∈ l, q x = true → p x = true) :
    (l.filter q).length < (l.filter p).length := by
  induction l with
  | nil => simp at ha
  | cons x t ih =>
    have himp' : ∀ y ∈ t, q y = true → p y = true :=
      fun y hy => himp y (List.mem_cons_of_mem _ hy)
    rcases List.mem_cons.mp ha with hax | hat
    · subst hax
      simp only [List.filter_cons, hpa, hqa, if_true, if_false]
      exact Nat.lt_succ_of_le (filterLen_mono t p q himp')
    · have hstrict := ih hat himp'
      cases hq : q x with
      | true =>
        have hp := himp x (List.mem_cons_self _ _) hq
        simp only [List.filter_cons, hq, hp, if_true]
        exact Nat.succ_lt_succ hstrict
      | false =>
        cases hp : p x with
        | true =>
          simp only [List.filter_cons, hq, hp, if_true, if_false]
          exact Nat.lt_succ_of_le (le_of_lt hstrict)
        | false =>
          simp only [List.filter_cons, hq, hp]
          exact hstrict

theorem clockScan_isSome (m : Nat) :
    ∀ (fuel : Nat) (frames : List Int) (bits : List (Int × Nat)) (hand : Nat),
      frames ≠ [] → hand < frames.length →
      (∀ p ∈ frames, (dictGet bits p).isSome = true) →
      (frames.filter (fun p => decide (dictGet bits p ≠ some 0))).length ≤ m →
      m < fuel →
      (clockScan fuel frames bits hand).isSome = true := by
  induction m with
  | zero =>
    intro fuel frames bits hand hne hhand hbits hcount hfuel
    obtain ⟨k, rfl⟩ := Nat.exists_eq_succ_of_ne_zero (by omega : fuel ≠ 0)
    have hget : frames[hand]? = some frames[hand] :=
      List.getElem?_eq_getElem hhand
    have hmem : frames[hand] ∈ frames := List.getElem_mem hhand
    have hzero : dictGet bits frames[hand] = some 0 := by
      by_contra hnz
      have hmemf : frames[hand] ∈
          frames.filter (fun p => decide (dictGet bits p ≠ some 0)) :=
        List.mem_filter.mpr ⟨hmem, by simpa using hnz⟩
      have := List.length_pos.mpr (List.ne_nil_of_mem hmemf)
      omega
    simp [clockScan, List.get?_eq_getElem?, hget, hzero]
  | succ n ih =>
    intro fuel frames bits hand hne hhand hbits hcount hfuel
    obtain ⟨k, rfl⟩ := Nat.exists_eq_succ_of_ne_zero (by omega : fuel ≠ 0)
    have hget : frames[hand]? = some frames[hand] :=
      List.getElem?_eq_getElem hhand
    have hmem : frames[hand] ∈ frames := List.getElem_mem hhand
    obtain ⟨b, hb⟩ := Option.isSome_iff_exists.mp (hbits _ hmem)
    by_cases hb0 : b = 0
    · simp [clockScan, List.get?_eq_getElem?, hget, hb, hb0]
    · have hstep : clockScan (k + 1) frames bits hand =
          clockScan k frames (dictSet bits frames[hand] 0)
            ((hand + 1) % frames.length) := by
        simp only [clockScan, List.get?_eq_getElem?, hget, hb]
        rw [if_neg hb0]
      rw [hstep]
      set page := frames[hand] with hpage
      apply ih k frames (dictSet bits page 0) ((hand + 1) % frames.length) hne
      · exact Nat.mod_lt _ (List.length_pos.mpr hne)
      · intro q hq
        by_cases hqp : q = page
        · subst hqp
          rw [dictGet_dictSet_self]
          rfl
        · rw [dictGet_dictSet_ne _ _ _ _ hqp]
          exact hbits q hq
      · have hlt := filterLen_strict frames
          (fun p => decide (dictGet bits p ≠ some 0))
          (fun p => decide (dictGet (dictSet bits page 0) p ≠ some 0)) page hmem
          (by simp [hb, hb0]) (by simp [dictGet_dictSet_self])
          ?_
        · omega
        · intro x hx hqx
          simp only [decide_eq_true_eq] at hqx ⊢
          by_cases hxp : x = page
          · subst hxp
            rw [dictGet_dictSet_self] at hqx
            exact absurd rfl hqx
          · rw [dictGet_dictSet_ne _ _ _ _ hxp] at hqx
            exact hqx
      · omega

theorem clockScan_mono :
    ∀ (fuel fuel' : Nat) (frames : List Int) (bits : List (Int × Nat))
      (hand : Nat) (r : Int × List (Int × Nat) × Nat),
      fuel ≤ fuel' → clockScan fuel frames bits hand = some r →
      clockScan fuel' frames bits hand = some r := by
  intro fuel
  induction fuel with
  | zero =>
    intro fuel' frames bits hand r _ h
    simp [clockScan] at h
  | succ k ih =>
    intro fuel' frames bits hand r hle h
    obtain ⟨k', rfl⟩ := Nat.exists_eq_succ_of_ne_zero (by omega : fuel' ≠ 0)
    cases hget : frames[hand]? with
    | none =>
      simp only [clockScan, List.get?_eq_getElem?, hget] at h
      exact Option.noConfusion h
    | some page =>
      cases hb : dictGet bits page with
      | none =>
        simp only [clockScan, List.get?_eq_getElem?, hget, hb] at h
        exact Option.noConfusion h
      | some b =>
        simp only [clockScan, List.get?_eq_getElem?, hget, hb] at h ⊢
        by_cases hb0 : b = 0
        · rw [if_pos hb0] at h ⊢
          exact h
        · rw [if_neg hb0] at h ⊢
          exact ih k' frames (dictSet bits page 0) ((hand + 1) % frames.length)
            r (by omega) h

/-- C10: when the resident frame list is non-empty, the hand is a valid index
and every resident page has a reference bit, `Clock.get_victim` returns a
victim, and the scan already succeeds within `2 * frames.length` loop
iterations (each non-returning iteration clears one reference bit). -/
theorem c10_clock_get_victim_terminates (s : Clock) (hne : s.frames ≠ [])
    (hhand : s.clock_hand < s.frames.length)
    (hbits : ∀ p ∈ s.frames, (dictGet s.reference_bits p).isSome = true) :
    ∃ r, Clock.get_victim s = some r ∧
      clockScan (2 * s.frames.length) s.frames s.reference_bits s.clock_hand =
        some (r.1, r.2.reference_bits, r.2.clock_hand) := by
  have hn : 0 < s.frames.length := List.length_pos.mpr hne
  have hcount :
      (s.frames.filter
        (fun p => decide (dictGet s.reference_bits p ≠ some 0))).length ≤
        s.frames.length := List.length_filter_le _ _
  have hsome := clockScan_isSome s.frames.length (2 * s.frames.length) s.frames
    s.reference_bits s.clock_hand hne hhand hbits hcount (by omega)
  obtain ⟨val, hval⟩ := Option.isSome_iff_exists.mp hsome
  have hval' : clockScan (2 * s.frames.length + 2) s.frames s.reference_bits
      s.clock_hand = some val :=
    clockScan_mono _ _ _ _ _ _ (by omega) hval
  refine ⟨(val.1, { s with reference_bits := val.2.1, clock_hand := val.2.2 }),
    ?_, ?_⟩
  · unfold Clock.get_victim
    rw [hval']
    rfl
  · rw [hval]

/-- C10 witness: a Clock state with both reference bits set (worst case needs
a full sweep to clear them and part of a second to return). -/
theorem c10_clock_get_victim_terminates_witness :
    ∃ r, Clock.get_victim
        { num_frames := 2, frames := [1, 2], reference_bits := [(1, 1), (2, 1)],
          clock_hand := 0 } = some r ∧
      clockScan (2 * 2) [1, 2] [(1, 1), (2, 1)] 0 =
        some (r.1, r.2.reference_bits, r.2.clock_hand) :=
  c10_clock_get_victim_terminates
    { num_frames := 2, frames := [1, 2], reference_bits := [(1, 1), (2, 1)],
      clock_hand := 0 } (by decide) (by decide)
    (by
      intro p hp
      fin_cases hp <;> decide)

end VMS
